import Mathlib

/-!
Verification of the DGA compliance checker's rule engine
(`src/utils/dgaScanner.js`) and web crawler (`src/utils/webCrawler.js`)
through a shallow embedding in Lean.

Conventions of the embedding:
* A parsed DOM document is opaque to the scanner except for the operations
  it actually performs (`querySelectorAll`, `documentElement.outerHTML`),
  so `JsDoc` is a structure of those capabilities and `JsElem` carries the
  one element capability used (`outerHTML`).
* Rule predicates may return a boolean, an object with a `passed` field
  (plus optional `reason` / `howToFix`), or throw; this is `JsOutcome`.
* JS exceptions thrown by predicates are modelled as the `thrown`
  constructor; the scanner's `try`/`catch` handling appears explicitly in
  `evalRule`.  `scanDocument` itself is a total Lean function, mirroring
  the fact that the source never lets a predicate error escape.
* The score expression `Math.round ((p / t) * 100)` is evaluated by JS in
  IEEE-754 binary64 arithmetic, and the embedding follows it exactly: the
  two intermediate doubles are modelled as mantissa/exponent pairs with
  round-to-nearest-ties-to-even at 53 bits of significand (`jsDiv`,
  `jsMul100`), and `Math.round` is round-half-up of the exact value of
  the resulting double (`jsRoundNat`).  This is observably different from
  exact rational rounding: 23 passed and 17 violations give
  `(23 / 40) * 100 = 57.49999999999999`, hence score 57, not `round
  (57.5) = 58`.  The subnormal and overflow ranges of binary64 are
  unreachable here (`1 / t ≤ p / t ≤ p` for `p, t ≥ 1`), so the
  normal-range rounding above is the complete semantics.
* Network fetches are a parameter: `String → Except String JsDoc` for the
  scanner (an `Except.error` covers network errors, non-2xx statuses and
  parse failures, all of which the source turns into a caught exception).
-/

namespace DGA

/-!
IEEE-754 binary64 evaluation of the score expression
`Math.round ((p / t) * 100)`.  A non-negative finite double is carried as
a mantissa/exponent pair `(m, e)` of value `m * 2 ^ e`; the pair is not
kept normalized beyond what the rounding steps produce, since only the
value matters.
-/

/-- Fuelled floor-log2 (the fuel argument makes the recursion structural
and hence kernel-computable; `n` units always suffice). -/
def log2Fuel : Nat → Nat → Nat
  | 0, _ => 0
  | fuel + 1, n => if 2 ≤ n then log2Fuel fuel (n / 2) + 1 else 0

/-- `⌊log₂ n⌋` for `n ≥ 1` (and 0 at 0). -/
def natLog2 (n : Nat) : Nat := log2Fuel n n

/-- `⌊log₂ (a / b)⌋` for `a, b ≥ 1`: the exponent of the binade holding
the quotient. -/
def ratFloorLog2 (a b : Nat) : Int :=
  let k := natLog2 a
  let l := natLog2 b
  if b * 2 ^ k ≤ a * 2 ^ l then (k : Int) - l else (k : Int) - l - 1

/-- Round the quotient `n / d` to the nearest integer, ties to even —
the IEEE-754 default rounding applied to an exact quotient. -/
def rne (n d : Nat) : Nat :=
  let q := n / d
  let r := n % d
  if 2 * r < d then q
  else if d < 2 * r then q + 1
  else if q % 2 = 0 then q else q + 1

/-- The binary64 quotient `p / t` (JS division of two exact small
integers is correctly rounded): scale the exact quotient into
`[2^52, 2^53)` and round to nearest-even. -/
def jsDiv (p t : Nat) : Nat × Int :=
  let e := ratFloorLog2 p t
  if 0 ≤ 52 - e then (rne (p * 2 ^ (52 - e).toNat) t, e - 52)
  else (rne p (t * 2 ^ (e - 52).toNat), e - 52)

/-- The binary64 product `d * 100`: the exact integer `100 * m` is cut
back to 53 significand bits by nearest-even rounding. -/
def jsMul100 (d : Nat × Int) : Nat × Int :=
  let n := 100 * d.1
  let bits := natLog2 n + 1
  if 53 < bits then (rne n (2 ^ (bits - 53)), d.2 + (bits - 53))
  else (n, d.2)

/-- `Math.round` on a non-negative double `m * 2 ^ e`: the closest
integer to its exact value, ties toward `+∞`. -/
def jsRoundNat (d : Nat × Int) : Nat :=
  if 0 ≤ d.2 then d.1 * 2 ^ d.2.toNat
  else (d.1 + 2 ^ ((-d.2).toNat - 1)) / 2 ^ (-d.2).toNat

/-- `Math.round ((p / t) * 100)` as the source computes it (for `p = 0`
every step is exactly zero). -/
def jsScore (p t : Nat) : Nat :=
  if p = 0 then 0 else jsRoundNat (jsMul100 (jsDiv p t))

/-- The exact rational value of the double `(m, e)`. -/
def dval (d : Nat × Int) : ℚ := (d.1 : ℚ) * 2 ^ d.2

/-!
JS string operations, modelled over the character list of a Lean string
(kernel-computable counterparts of `toLowerCase`, `endsWith`,
`startsWith`, `trim` and `substring(0, n)`).
-/

/-- JS `s.toLowerCase()`. -/
def jsToLower (s : String) : String := String.mk (s.data.map Char.toLower)

/-- JS `s.endsWith(suff)`. -/
def jsEndsWith (s suff : String) : Bool := List.isSuffixOf suff.data s.data

/-- JS `s.startsWith(p)`. -/
def jsStartsWithStr (s p : String) : Bool := List.isPrefixOf p.data s.data

/-- JS `s.trim()`. -/
def jsTrim (s : String) : String :=
  String.mk
    ((s.data.dropWhile Char.isWhitespace).reverse.dropWhile
      Char.isWhitespace).reverse

/-- JS `s.substring(0, n)`. -/
def jsTake (s : String) (n : Nat) : String := String.mk (s.data.take n)

/-- The only element capability the scanner uses: `element.outerHTML`. -/
structure JsElem where
  outerHTML : String
deriving Repr, DecidableEq

/-- The document capabilities the scanner uses: `doc.querySelectorAll`
and `doc.documentElement` (as its serialized `outerHTML`, `none` when the
document structure is missing). -/
structure JsDoc where
  querySelectorAll : String → List JsElem
  documentElement : Option String

/-- Value returned by a rule predicate: a plain boolean, or an object
with a `passed` flag and optional `reason` / `howToFix` strings. -/
inductive JsCheckValue where
  | bool (b : Bool)
  | obj (passed : Bool) (reason : Option String) (howToFix : Option String)
deriving Repr, DecidableEq

/-- `typeof checkResult === 'boolean' ? checkResult : checkResult?.passed`. -/
def JsCheckValue.toPassed : JsCheckValue → Bool
  | .bool b => b
  | .obj p _ _ => p

/-- `typeof checkResult === 'object' ? checkResult.reason : null`. -/
def JsCheckValue.reasonField : JsCheckValue → Option String
  | .bool _ => none
  | .obj _ r _ => r

/-- `typeof checkResult === 'object' ? checkResult.howToFix : null`. -/
def JsCheckValue.howToFixField : JsCheckValue → Option String
  | .bool _ => none
  | .obj _ _ f => f

/-- Result of invoking a rule predicate: a returned value or a thrown
JS exception carrying a message. -/
inductive JsOutcome where
  | ret (v : JsCheckValue)
  | thrown (msg : String)

/-- The executable part of a rule: a whole-document predicate
(`rule.globalCheck`), a selector with a per-element predicate
(`rule.selector` and `rule.check`), or neither (such a rule is skipped by
the dispatch in `scanDocument`). -/
inductive RuleImpl where
  | globalCheck (f : JsDoc → JsOutcome)
  | selectorCheck (selector : String) (check : JsElem → JsOutcome)
  | noCheck

/-- An entry of the `dgaRules` catalogue. -/
structure Rule where
  id : String
  category : String
  description : String
  requirements : List String
  severity : String
  ruleType : String
  impl : RuleImpl

/-- A violation record pushed by `scanDocument`. -/
structure Violation where
  id : String
  description : String
  severity : String
  category : String
  ruleType : String
  requirements : List String
  pageUrl : String
  preview : Option String
  violationReason : String
  howToFix : String
deriving Repr, DecidableEq

/-- A passed-check record pushed by `scanDocument`. -/
structure PassedCheck where
  id : String
  description : String
  severity : String
  category : String
  ruleType : String
deriving Repr, DecidableEq

/-- The passed-check record for a rule (the five metadata fields the
source copies into `passed`). -/
def passedRecord (rule : Rule) : PassedCheck :=
  { id := rule.id, description := rule.description, severity := rule.severity
    category := rule.category, ruleType := rule.ruleType }

/-- `doc.documentElement ? doc.documentElement.outerHTML.substring(0, 1000)
: 'Document Structure Missing'`. -/
def docPreview (doc : JsDoc) : String :=
  match doc.documentElement with
  | some html => jsTake html 1000
  | none => "Document Structure Missing"

/-- Mutable state of the element loop in the selector branch of
`scanDocument`: `allPass`, `preview`, `violationReason`, `howToFix`. -/
structure ElemScan where
  allPass : Bool
  preview : Option String
  violationReason : Option String
  howToFix : Option String
deriving Repr, DecidableEq

/-- One iteration of `elements.forEach` in the selector branch: invoke the
per-element predicate inside `try`/`catch`; a thrown error sets
`allPass = false`; a falsy result sets `allPass = false`, records the first
failing element's snippet as preview, and captures the first provided
`reason` / `howToFix` of object-shaped results. -/
def elemStep (check : JsElem → JsOutcome) (st : ElemScan) (e : JsElem) : ElemScan :=
  match check e with
  | .thrown _ => { st with allPass := false }
  | .ret v =>
    if v.toPassed then st
    else
      let st' := { st with allPass := false
                           preview := st.preview.or (some (jsTake e.outerHTML 1000)) }
      match v with
      | .bool _ => st'
      | .obj _ r f =>
          { st' with violationReason := st.violationReason.or r
                     howToFix := st.howToFix.or f }

/-- Outcome of running one catalogue rule over a document: skipped
(manual rules and rules without a usable predicate), a violation record,
or a passed record. -/
inductive RuleOutcome where
  | skipped
  | violated (v : Violation)
  | ok (p : PassedCheck)

/-- The violation produced by a `RuleOutcome`, if any. -/
def RuleOutcome.violationPart : RuleOutcome → Option Violation
  | .violated v => some v
  | _ => none

/-- The passed record produced by a `RuleOutcome`, if any. -/
def RuleOutcome.passedPart : RuleOutcome → Option PassedCheck
  | .ok p => some p
  | _ => none

/-- Evaluation of a single rule by `scanDocument`:
* manual rules are skipped;
* a `globalCheck` rule runs its predicate inside `try`/`catch`; a thrown
  error or a falsy result produces a violation, a truthy result a pass;
* a `selector` + `check` rule queries all matching elements; with zero
  matches the rule vacuously passes, otherwise each element is checked
  (errors caught per element) and the rule fails if any element fails. -/
def evalRule (doc : JsDoc) (pageUrl : String) (rule : Rule) : RuleOutcome :=
  if rule.ruleType = "manual" then .skipped
  else
    match rule.impl with
    | .globalCheck f =>
      match f doc with
      | .thrown msg =>
          .violated
            { id := rule.id, description := rule.description
              severity := rule.severity, category := rule.category
              ruleType := rule.ruleType, requirements := rule.requirements
              pageUrl := pageUrl
              preview := some ("Error during check: " ++ msg)
              violationReason := "Check failed with error: " ++ msg
              howToFix := "Review rule implementation and ensure proper DOM structure" }
      | .ret v =>
          if v.toPassed then .ok (passedRecord rule)
          else
            .violated
              { id := rule.id, description := rule.description
                severity := rule.severity, category := rule.category
                ruleType := rule.ruleType, requirements := rule.requirements
                pageUrl := pageUrl
                preview := some (docPreview doc)
                violationReason :=
                  v.reasonField.getD ("Rule #" ++ rule.id ++ " global check failed")
                howToFix :=
                  v.howToFixField.getD
                    "Review requirements and update implementation to match DGA standards" }
    | .selectorCheck sel chk =>
      let elements := doc.querySelectorAll sel
      let st :=
        if elements.length > 0 then
          elements.foldl (elemStep chk) ⟨true, none, none, none⟩
        else
          ⟨true, none, none, none⟩
      if st.allPass then .ok (passedRecord rule)
      else
        .violated
          { id := rule.id, description := rule.description
            severity := rule.severity, category := rule.category
            ruleType := rule.ruleType, requirements := rule.requirements
            pageUrl := pageUrl
            preview := st.preview
            violationReason :=
              st.violationReason.getD ("Rule #" ++ rule.id ++ " check failed")
            howToFix :=
              st.howToFix.getD
                "Review requirements and update implementation to match DGA standards" }
    | .noCheck => .skipped

/-- The per-page scan report returned by `scanDocument` and `scanUrl`.
The `error` field is `none` for a successful scan and carries the caught
exception's message when `scanUrl` fails to fetch or parse. -/
structure PageReport where
  score : Nat
  violations : List Violation
  passed : List PassedCheck
  totalChecks : Nat
  pageUrl : String
  error : Option String := none
deriving Repr, DecidableEq

/-- `scanDocument(doc, pageUrl)`: run every catalogue rule, collect
violation and passed records in catalogue order, and compute the score
`totalChecks > 0 ? Math.round((passed.length / totalChecks) * 100) : 100`.
The `pageUrl || window.location.href || ''` fallback is modelled for the
windowless (Node) context as `pageUrl?.getD ""`. -/
def scanDocument (rules : List Rule) (doc : JsDoc) (pageUrl? : Option String) :
    PageReport :=
  let pageUrl := pageUrl?.getD ""
  let violations := rules.filterMap fun r => (evalRule doc pageUrl r).violationPart
  let passed := rules.filterMap fun r => (evalRule doc pageUrl r).passedPart
  let totalAutomated := violations.length + passed.length
  let score := if totalAutomated > 0 then jsScore passed.length totalAutomated else 100
  { score := score, violations := violations, passed := passed
    totalChecks := totalAutomated, pageUrl := pageUrl }

/-- `scanUrl(url)`: fetch and parse the page, then scan it; any failure
(network error, non-2xx response, parser unavailability) is caught and
returned as an error-shaped report with score 0 and empty lists.  The
fetch-and-parse pipeline is the `fetchParse` parameter. -/
def scanUrl (fetchParse : String → Except String JsDoc) (rules : List Rule)
    (url : String) : PageReport :=
  match fetchParse url with
  | .ok doc => scanDocument rules doc (some url)
  | .error msg =>
      { error := some msg, score := 0, violations := [], passed := []
        totalChecks := 0, pageUrl := url }

/-- A passed record carried into the aggregate with its page context
(`{...passed, pageUrl: url}`). -/
structure AggPassed extends PassedCheck where
  pageUrl : String
deriving Repr, DecidableEq

/-- A per-page summary pushed onto `pageResults` by `scanMultipleUrls`.
The success path pushes `{url, score, violationCount, passedCount}` with
no `error` property; `error := none` models the absent property.  (The
`catch` branch that would set it is unreachable: `scanUrl` catches all of
its own failures and returns normally.) -/
structure PageSummary where
  url : String
  score : Nat
  violationCount : Nat
  passedCount : Nat
  error : Option String := none
deriving Repr, DecidableEq

/-- A deduplicated violation: the retained first-occurrence violation
record extended with the list of affected pages and an occurrence count. -/
structure DedupedViolation extends Violation where
  affectedPages : List String
  occurrences : Nat
deriving Repr, DecidableEq

/-- The dedup key `` `${violation.id}-${violation.description}` ``. -/
def violationKey (id description : String) : String :=
  id ++ "-" ++ description

/-- Key of an aggregated violation. -/
def Violation.key (v : Violation) : String := violationKey v.id v.description

/-- Key under which a deduplicated violation is stored (its `id` and
`description` are those of its first occurrence, so this recomputes the
map key). -/
def DedupedViolation.key (d : DedupedViolation) : String :=
  violationKey d.id d.description

/-- First occurrence of a key:
`{...violation, affectedPages: [violation.pageUrl], occurrences: 1}`. -/
def mkDeduped (v : Violation) : DedupedViolation :=
  { toViolation := v, affectedPages := [v.pageUrl], occurrences := 1 }

/-- Subsequent occurrence of a key: append the page to `affectedPages` and
increment `occurrences`, both only when the page is not already listed. -/
def addPage (d : DedupedViolation) (pageUrl : String) : DedupedViolation :=
  if pageUrl ∈ d.affectedPages then d
  else
    { d with affectedPages := d.affectedPages ++ [pageUrl]
             occurrences := d.occurrences + 1 }

/-- Processing one aggregated violation against the insertion-ordered
`violationMap`: update the entry stored under its key, or append a fresh
entry when the key is new. -/
def insertViolation : List DedupedViolation → Violation → List DedupedViolation
  | [], v => [mkDeduped v]
  | d :: rest, v =>
      if d.key = v.key then addPage d v.pageUrl :: rest
      else d :: insertViolation rest v

/-- The deduplication pass of `scanMultipleUrls`: fold all aggregated
violations into the keyed map and read the entries back in first-insertion
order (JS `Map` iteration order). -/
def dedupViolations (vs : List Violation) : List DedupedViolation :=
  vs.foldl insertViolation []

/-- The running totals of the `scanMultipleUrls` loop. -/
structure ScanAccum where
  allViolations : List Violation
  allPassed : List AggPassed
  pageResults : List PageSummary
deriving Repr, DecidableEq

/-- One iteration of the `scanMultipleUrls` loop: scan the URL, record its
`PageSummary`, and append its violations and passed checks — each stamped
with the page's URL — to the running totals. -/
def scanStep (fetchParse : String → Except String JsDoc) (rules : List Rule)
    (acc : ScanAccum) (url : String) : ScanAccum :=
  let result := scanUrl fetchParse rules url
  { allViolations :=
      acc.allViolations ++ result.violations.map fun v => { v with pageUrl := url }
    allPassed :=
      acc.allPassed ++ result.passed.map fun p =>
        ({ toPassedCheck := p, pageUrl := url } : AggPassed)
    pageResults :=
      acc.pageResults ++
        [{ url := url, score := result.score
           violationCount := result.violations.length
           passedCount := result.passed.length }] }

/-- The aggregate report returned by `scanMultipleUrls`.  The `timestamp`
field (`new Date().toISOString()`) is a real-time value and is omitted
from the embedding. -/
structure AggregateReport where
  score : Nat
  status : String
  violations : List DedupedViolation
  passed : List AggPassed
  totalChecks : Nat
  pageResults : List PageSummary
  totalPages : Nat
  pagesWithViolations : Nat
  totalViolationsBeforeDedup : Nat
deriving Repr, DecidableEq

/-- `scanMultipleUrls(urls)`: scan each URL sequentially, accumulate
violations / passed checks / page summaries, compute the overall score
over the pre-dedup totals, derive the status, and deduplicate the
violations.  Progress callbacks are side-effect-only and not modelled. -/
def scanMultipleUrls (fetchParse : String → Except String JsDoc)
    (rules : List Rule) (urls : List String) : AggregateReport :=
  let acc := urls.foldl (scanStep fetchParse rules) ⟨[], [], []⟩
  let totalChecks := acc.allViolations.length + acc.allPassed.length
  let overallScore :=
    if totalChecks > 0 then jsScore acc.allPassed.length totalChecks else 100
  let status :=
    if acc.allViolations.length > 0 then
      if acc.allViolations.length > acc.allPassed.length then "Non-Compliant"
      else "Partially Compliant"
    else "Compliant"
  let uniqueViolations := dedupViolations acc.allViolations
  { score := overallScore, status := status, violations := uniqueViolations
    passed := acc.allPassed, totalChecks := totalChecks
    pageResults := acc.pageResults, totalPages := urls.length
    pagesWithViolations :=
      (acc.pageResults.filter fun p => p.violationCount > 0).length
    totalViolationsBeforeDedup := acc.allViolations.length }

/-!
Crawler (`src/utils/webCrawler.js`).  The WHATWG URL object is modelled by
the components the crawler reads and writes: `origin`, `pathname`,
`search` and `hash` (the latter two including their leading `?` / `#`
when non-empty), with `toString` their concatenation.  URL parsing and
resolution themselves are external capabilities and appear as parameters
of `CrawlEnv`, together with the fetch pipeline (`none` models a network
error or a non-2xx response — both make the crawler skip the page) and
the parsed document's anchor `href` attributes.
-/

/-- The components of a WHATWG URL object used by the crawler. -/
structure JsUrl where
  origin : String
  pathname : String
  search : String
  hash : String
deriving Repr, DecidableEq

/-- URL serialization: `origin + pathname + search + hash`. -/
def JsUrl.toString (u : JsUrl) : String :=
  u.origin ++ u.pathname ++ u.search ++ u.hash

/-- External capabilities of the crawler: `new URL(s)`, `new URL(href,
base)` (both `none` on the exception for a malformed URL), the fetch of a
page's HTML text, and the `href` attributes of the parsed page's
`a[href]` anchors. -/
structure CrawlEnv where
  parseUrl : String → Option JsUrl
  resolveUrl : String → String → Option JsUrl
  fetchPage : String → Option String
  docAnchors : String → List String

/-- The fixed non-page extension list of `isNonPageResource`. -/
def nonPageExtensions : List String :=
  [".jpg", ".jpeg", ".png", ".gif", ".svg", ".webp",
   ".pdf", ".doc", ".docx", ".xls", ".xlsx",
   ".zip", ".tar", ".gz",
   ".mp3", ".mp4", ".avi", ".mov",
   ".css", ".js", ".json", ".xml"]

/-- `isNonPageResource(url)`: does the lowercased URL string end in one of
the fixed non-page extensions? -/
def isNonPageResource (url : String) : Bool :=
  nonPageExtensions.any fun ext => jsEndsWith (jsToLower url) ext

/-- `href.replace(/['"]/g, '').trim()`. -/
def cleanHref (href : String) : String :=
  jsTrim (String.mk (href.data.filter fun c =>
    c ≠ Char.ofNat 39 ∧ c ≠ Char.ofNat 34))

/-- The skip test for cleaned hrefs: empty, `mailto:`, `tel:`,
`javascript:` or a bare `#`. -/
def skipHref (href : String) : Bool :=
  href = "" || jsStartsWithStr href "mailto:" || jsStartsWithStr href "tel:" ||
    jsStartsWithStr href "javascript:" || href = "#"

/-- Insertion into a JS `Set` viewed as an insertion-ordered list. -/
def addUnique (l : List String) (x : String) : List String :=
  if x ∈ l then l else l ++ [x]

/-- The body of the `anchors.forEach` loop of `extractLinks`: clean the
`href`, apply the skip test, resolve it against the current page
(malformed URLs silently discarded), keep same-origin targets only, strip
the fragment, drop non-page resources, and add the survivor to the
insertion-ordered set. -/
def linkStep (env : CrawlEnv) (currentUrl baseOrigin : String)
    (links : List String) (anchor : String) : List String :=
  if anchor = "" then links
  else
    let href := cleanHref anchor
    if skipHref href then links
    else
      match env.resolveUrl href currentUrl with
      | none => links
      | some u =>
        if u.origin ≠ baseOrigin then links
        else
          let normalizedUrl := JsUrl.toString { u with hash := "" }
          if isNonPageResource normalizedUrl then links
          else addUnique links normalizedUrl

/-- `extractLinks(html, currentUrl, baseOrigin)`: run the anchor loop
over every `a[href]` of the parsed page. -/
def extractLinks (env : CrawlEnv) (html currentUrl baseOrigin : String) :
    List String :=
  (env.docAnchors html).foldl (linkStep env currentUrl baseOrigin) []

/-- The crawl state: the insertion-ordered `discoveredUrls` and
`visitedUrls` sets and the FIFO frontier of `(url, depth)` pairs. -/
structure CrawlState where
  discovered : List String
  visited : List String
  queue : List (String × Nat)
deriving Repr, DecidableEq

/-- The loop variant: `(maxPages - |discovered|) + |frontier|`. -/
def crawlMeasure (maxPages : Nat) (s : CrawlState) : Nat :=
  (maxPages - s.discovered.length) + s.queue.length

/-- The link-enqueueing loop of a successful fetch: each extracted link
not already discovered is, while `|discovered| < maxPages`, added to
`discovered` and enqueued at `depth + 1`. -/
def addLinks (maxPages depth : Nat) (links : List String) (s : CrawlState) :
    CrawlState :=
  links.foldl
    (fun st link =>
      if link ∉ st.discovered ∧ st.discovered.length < maxPages then
        { st with discovered := st.discovered ++ [link]
                  queue := st.queue ++ [(link, depth)] }
      else st)
    s

/-- The crawl `while` loop, fuelled: each unit of fuel allows one
iteration (pop the frontier head; skip it when already visited or beyond
`maxDepth`; otherwise mark it visited, fetch it — a failed fetch is
logged and skipped — and enqueue its extracted links).  The loop exits
when the frontier is empty or `|discovered| ≥ maxPages`.
`crawlIters_fuel_sufficient` shows any fuel above `crawlMeasure` computes
the loop's actual fixed point, so the fuel is not a semantic bound. -/
def crawlIters (env : CrawlEnv) (baseOrigin : String)
    (maxPages maxDepth : Nat) : Nat → CrawlState → CrawlState
  | 0, s => s
  | fuel + 1, s =>
    match s.queue with
    | [] => s
    | (url, depth) :: rest =>
      if s.discovered.length < maxPages then
        if url ∈ s.visited ∨ maxDepth < depth then
          crawlIters env baseOrigin maxPages maxDepth fuel { s with queue := rest }
        else
          let s1 : CrawlState :=
            { s with queue := rest, visited := s.visited ++ [url] }
          match env.fetchPage url with
          | none => crawlIters env baseOrigin maxPages maxDepth fuel s1
          | some html =>
              crawlIters env baseOrigin maxPages maxDepth fuel
                (addLinks maxPages (depth + 1)
                  (extractLinks env html url baseOrigin) s1)
      else s

/-- `crawlWebsite(baseUrl, {maxPages, maxDepth})`: parse the base URL
(`none` models the thrown exception on a malformed one), seed
`discovered` and the frontier with it, run the loop, and return the
discovered URLs in insertion order. -/
def crawlWebsite (env : CrawlEnv) (baseUrl : String)
    (maxPages maxDepth : Nat) : Option (List String) :=
  match env.parseUrl baseUrl with
  | none => none
  | some u =>
    let init : CrawlState := ⟨[baseUrl], [], [(baseUrl, 0)]⟩
    some (crawlIters env u.origin maxPages maxDepth
            (crawlMeasure maxPages init + 1) init).discovered

/-!
Concrete fixtures used by witnesses and counterexamples.
-/

/-- A document with no matching elements and no document element. -/
def exDoc : JsDoc := { querySelectorAll := fun _ => [], documentElement := none }

/-- An automated global rule whose predicate always passes. -/
def exRulePass : Rule :=
  { id := "1", category := "General", description := "always passes"
    requirements := [], severity := "high", ruleType := "automated"
    impl := .globalCheck fun _ => .ret (.bool true) }

/-- An automated global rule whose predicate always fails. -/
def exRuleFail : Rule :=
  { id := "2", category := "General", description := "always fails"
    requirements := [], severity := "high", ruleType := "automated"
    impl := .globalCheck fun _ => .ret (.bool false) }

/-- Ten automated rules of which exactly seven pass. -/
def exRules10 : List Rule :=
  [exRulePass, exRulePass, exRulePass, exRulePass, exRulePass, exRulePass,
   exRulePass, exRuleFail, exRuleFail, exRuleFail]

/-- Forty automated rules of which exactly twenty-three pass: an input at
which double rounding and exact rounding of the score disagree. -/
def exRules40 : List Rule :=
  List.replicate 23 exRulePass ++ List.replicate 17 exRuleFail

/-- A fetch pipeline for which every URL parses to `exDoc`. -/
def exFetchOk : String → Except String JsDoc := fun _ => .ok exDoc

/-- A fetch pipeline for which every URL fails. -/
def exFetchFail : String → Except String JsDoc :=
  fun _ => .error "Failed to fetch the URL"

/-- An automated selector rule (its per-element predicate always fails,
so only a vacuous pass can put it into `passed`). -/
def exRuleSel : Rule :=
  { id := "3", category := "Files", description := "file upload components"
    requirements := [], severity := "medium", ruleType := "automated"
    impl := .selectorCheck "input" fun _ => .ret (.bool false) }

/-- An automated global rule whose predicate throws. -/
def exRuleThrowG : Rule :=
  { id := "10", category := "General", description := "throwing global check"
    requirements := [], severity := "high", ruleType := "automated"
    impl := .globalCheck fun _ => .thrown "boom" }

/-- A concrete element. -/
def exElem : JsElem := { outerHTML := "<input type=file>" }

/-- A document exposing one `input` element. -/
def exDocElems : JsDoc :=
  { querySelectorAll := fun sel => if sel = "input" then [exElem] else []
    documentElement := some "<html></html>" }

/-- An automated selector rule whose per-element predicate throws. -/
def exRuleThrowE : Rule :=
  { id := "11", category := "Files", description := "throwing element check"
    requirements := [], severity := "medium", ruleType := "automated"
    impl := .selectorCheck "input" fun _ => .thrown "bang" }

/-- A concrete violation record. -/
def exViol : Violation :=
  { id := "2", description := "always fails", severity := "high"
    category := "General", ruleType := "automated", requirements := []
    pageUrl := "u1", preview := none
    violationReason := "Rule #2 global check failed"
    howToFix := "Review requirements and update implementation to match DGA standards" }

/-- A crawl environment whose seed page links to `doc.pdf?x=1`: the
resolved URL's path is `/doc.pdf` but the serialized URL keeps its query
string, so it slips past the extension filter. -/
def exEnvPdf : CrawlEnv :=
  { parseUrl := fun s =>
      if s = "http://a.example/" then some ⟨"http://a.example", "/", "", ""⟩
      else none
    resolveUrl := fun href cur =>
      if href = "doc.pdf?x=1" ∧ cur = "http://a.example/" then
        some ⟨"http://a.example", "/doc.pdf", "?x=1", ""⟩
      else none
    fetchPage := fun u => if u = "http://a.example/" then some "page" else none
    docAnchors := fun h => if h = "page" then ["doc.pdf?x=1"] else [] }

/-- A crawl environment whose seed URL (carrying a fragment and a `.pdf`
extension) parses but never fetches. -/
def exEnvSeedFail : CrawlEnv :=
  { parseUrl := fun s =>
      if s = "http://a.example/x.pdf#frag" then
        some ⟨"http://a.example", "/x.pdf", "", "#frag"⟩
      else none
    resolveUrl := fun _ _ => none
    fetchPage := fun _ => none
    docAnchors := fun _ => [] }

/-!
Score arithmetic: the scanner's natural-number computation of
`Math.round` is the round-half-up of the exact value of the evaluated
double, and at some inputs that is not the exact rounding of
`100 * p / t`.
-/

/-- Nearest-even rounding of a zero numerator is zero. -/
theorem rne_zero (d : Nat) : rne 0 d = 0 := by
  unfold rne
  simp only [Nat.zero_div, Nat.zero_mod, Nat.mul_zero]
  split_ifs <;> omega

/-- The binary64 quotient `0 / t` has a zero mantissa. -/
theorem jsDiv_zero (t : Nat) : (jsDiv 0 t).1 = 0 := by
  simp only [jsDiv]
  split_ifs <;> simp [rne_zero]

/-- Scaling a zero-mantissa double by 100 keeps the mantissa zero. -/
theorem jsMul100_fst_zero (d : Nat × Int) (h : d.1 = 0) :
    (jsMul100 d).1 = 0 := by
  simp [jsMul100, h, natLog2, log2Fuel]

/-- The scanner's `Math.round` computation equals the mathematical
round-half-up of the double's exact value. -/
theorem jsRoundNat_eq_round (d : Nat × Int) :
    (jsRoundNat d : ℤ) = round (dval d) := by
  obtain ⟨m, e⟩ := d
  simp only [jsRoundNat, dval]
  by_cases he : 0 ≤ e
  · rw [if_pos he]
    have hd : (m : ℚ) * 2 ^ e = ((m * 2 ^ e.toNat : ℕ) : ℚ) := by
      push_cast
      rw [← zpow_natCast (2 : ℚ) e.toNat, Int.toNat_of_nonneg he]
    rw [hd, round_natCast]
  · rw [if_neg he]
    push_neg at he
    set k : Nat := (-e).toNat with hk
    have hk1 : 1 ≤ k := by omega
    have he' : e = -(k : Int) := by omega
    have hd : (m : ℚ) * 2 ^ e = (m : ℚ) / 2 ^ k := by
      rw [he', zpow_neg, zpow_natCast, div_eq_mul_inv]
    rw [hd, round_eq]
    have key : (m : ℚ) / 2 ^ k + 1 / 2 =
        ((2 * m + 2 ^ k : ℕ) : ℚ) / ((2 ^ (k + 1) : ℕ) : ℚ) := by
      push_cast
      rw [pow_succ]
      field_simp
      ring
    rw [key, ← Int.natCast_floor_eq_floor (by positivity), Nat.floor_div_eq_div]
    have h2k : 2 ^ k = 2 * 2 ^ (k - 1) := by
      conv_lhs => rw [show k = k - 1 + 1 by omega]
      rw [pow_succ]
      ring
    have hnat : (2 * m + 2 ^ k) / 2 ^ (k + 1) = (m + 2 ^ (k - 1)) / 2 ^ k := by
      have h2 : 2 * m + 2 ^ k = 2 * (m + 2 ^ (k - 1)) := by omega
      rw [h2, pow_succ, mul_comm (2 ^ k) 2, Nat.mul_div_mul_left _ _ (by norm_num)]
    rw [hnat]

/-- The score the source computes, as `Math.round` of the exact value of
the binary64 evaluation of `(p / t) * 100`. -/
theorem jsScore_eq_round (p t : Nat) :
    (jsScore p t : ℤ) = round (dval (jsMul100 (jsDiv p t))) := by
  by_cases hp : p = 0
  · subst hp
    have hz : (jsMul100 (jsDiv 0 t)).1 = 0 := jsMul100_fst_zero _ (jsDiv_zero t)
    unfold jsScore dval
    rw [if_pos rfl, hz]
    simp
  · unfold jsScore
    rw [if_neg hp]
    exact jsRoundNat_eq_round _

/-- C1 (amended).  When `totalChecks = 0` the score is 100; when
`totalChecks > 0` the score equals `Math.round` of the IEEE-754 binary64
evaluation of `(passed.length / (passed.length + violations.length)) *
100` — that is, the round-half-up of the exact value of the double
`jsMul100 (jsDiv p (p + v))`; the overall score of `scanMultipleUrls`
satisfies the same double-precision formula over the pre-dedup totals.
The exact rational rounding of `100 * p / (p + v)` claimed originally
differs at some inputs — see the counterexample at 23 passed and 17
violations. -/
theorem claim1_score_formula (rules : List Rule) (doc : JsDoc)
    (pu : Option String) (fetchParse : String → Except String JsDoc)
    (urls : List String) :
    (0 < (scanDocument rules doc pu).totalChecks →
      ((scanDocument rules doc pu).score : ℤ) =
        round (dval (jsMul100 (jsDiv (scanDocument rules doc pu).passed.length
          ((scanDocument rules doc pu).passed.length +
            (scanDocument rules doc pu).violations.length))))) ∧
    ((scanDocument rules doc pu).totalChecks = 0 →
      (scanDocument rules doc pu).score = 100) ∧
    (0 < (scanMultipleUrls fetchParse rules urls).totalChecks →
      ((scanMultipleUrls fetchParse rules urls).score : ℤ) =
        round (dval (jsMul100 (jsDiv
          (scanMultipleUrls fetchParse rules urls).passed.length
          ((scanMultipleUrls fetchParse rules urls).passed.length +
            (scanMultipleUrls fetchParse rules urls).totalViolationsBeforeDedup))))) ∧
    ((scanMultipleUrls fetchParse rules urls).totalChecks = 0 →
      (scanMultipleUrls fetchParse rules urls).score = 100) := by
  have hd1 : (scanDocument rules doc pu).totalChecks =
      (scanDocument rules doc pu).violations.length +
        (scanDocument rules doc pu).passed.length := rfl
  have hd2 : (scanDocument rules doc pu).score =
      if 0 < (scanDocument rules doc pu).totalChecks then
        jsScore (scanDocument rules doc pu).passed.length
          (scanDocument rules doc pu).totalChecks
      else 100 := rfl
  have hm1 : (scanMultipleUrls fetchParse rules urls).totalChecks =
      (scanMultipleUrls fetchParse rules urls).totalViolationsBeforeDedup +
        (scanMultipleUrls fetchParse rules urls).passed.length := rfl
  have hm2 : (scanMultipleUrls fetchParse rules urls).score =
      if 0 < (scanMultipleUrls fetchParse rules urls).totalChecks then
        jsScore (scanMultipleUrls fetchParse rules urls).passed.length
          (scanMultipleUrls fetchParse rules urls).totalChecks
      else 100 := rfl
  refine ⟨?_, ?_, ?_, ?_⟩
  · intro h
    rw [hd2, if_pos h, jsScore_eq_round, hd1,
      Nat.add_comm (scanDocument rules doc pu).violations.length
        (scanDocument rules doc pu).passed.length]
  · intro h
    rw [hd2, if_neg (by omega)]
  · intro h
    rw [hm2, if_pos h, jsScore_eq_round, hm1,
      Nat.add_comm (scanMultipleUrls fetchParse rules urls).totalViolationsBeforeDedup
        (scanMultipleUrls fetchParse rules urls).passed.length]
  · intro h
    rw [hm2, if_neg (by omega)]

/-- Witness for C1 (amended): seven passed checks and three violations
still score 70, and the double-precision formula instantiates there. -/
theorem claim1_score_formula_witness :
    (scanDocument exRules10 exDoc (some "u")).passed.length = 7 ∧
    (scanDocument exRules10 exDoc (some "u")).violations.length = 3 ∧
    (scanDocument exRules10 exDoc (some "u")).totalChecks = 10 ∧
    (scanDocument exRules10 exDoc (some "u")).score = 70 ∧
    ((scanDocument exRules10 exDoc (some "u")).score : ℤ) =
      round (dval (jsMul100 (jsDiv 7 10))) := by
  refine ⟨by decide, by decide, by decide, by decide, ?_⟩
  have h := (claim1_score_formula exRules10 exDoc (some "u") exFetchOk []).1
    (by decide)
  rw [show (scanDocument exRules10 exDoc (some "u")).passed.length = 7 from
      by decide,
    show (scanDocument exRules10 exDoc (some "u")).violations.length = 3 from
      by decide] at h
  exact h

/-- Counterexample for C1 as stated: at 23 passed checks and 17
violations the program computes score 57 — the binary64 evaluation of
`(23 / 40) * 100` is `57.49999999999999`, one ulp below 57.5 — while
exact rational rounding of `100 * 23 / (23 + 17)` is 58. -/
theorem claim1_score_formula_cex :
    (scanDocument exRules40 exDoc (some "u")).passed.length = 23 ∧
    (scanDocument exRules40 exDoc (some "u")).violations.length = 17 ∧
    (scanDocument exRules40 exDoc (some "u")).totalChecks = 40 ∧
    (scanDocument exRules40 exDoc (some "u")).score = 57 ∧
    round ((100 * 23 : ℚ) / (23 + 17)) = 58 := by
  refine ⟨by decide, by decide, by decide, by decide, ?_⟩
  have h58 : (100 * 23 : ℚ) / (23 + 17) + 1 / 2 = ((58 : ℤ) : ℚ) := by norm_num
  rw [round_eq, h58, Int.floor_intCast]

/-- C3.  The status of an aggregate report is `Compliant` when the
pre-dedup violation count is zero, `Non-Compliant` when it strictly
exceeds the total passed count, and `Partially Compliant` otherwise. -/
theorem claim3_status_thresholds (fetchParse : String → Except String JsDoc)
    (rules : List Rule) (urls : List String) :
    (scanMultipleUrls fetchParse rules urls).status =
      if (scanMultipleUrls fetchParse rules urls).totalViolationsBeforeDedup = 0 then
        "Compliant"
      else if (scanMultipleUrls fetchParse rules urls).passed.length <
          (scanMultipleUrls fetchParse rules urls).totalViolationsBeforeDedup then
        "Non-Compliant"
      else "Partially Compliant" := by
  simp only [scanMultipleUrls]
  split_ifs with h1 h2 h3 h4 h5 <;> first | rfl | omega

/-!
Deduplication lemmas.
-/

/-- `addPage` never changes the entry's key. -/
theorem addPage_key (d : DedupedViolation) (p : String) :
    (addPage d p).key = d.key := by
  unfold addPage
  split_ifs <;> rfl

/-- The fresh entry for a violation is stored under the violation's key. -/
theorem mkDeduped_key (v : Violation) : (mkDeduped v).key = v.key := rfl

/-- Keys of the map after one insertion: unchanged for a known key,
extended by the new key otherwise. -/
theorem insertViolation_keys (ds : List DedupedViolation) (v : Violation) :
    (insertViolation ds v).map DedupedViolation.key =
      if v.key ∈ ds.map DedupedViolation.key then ds.map DedupedViolation.key
      else ds.map DedupedViolation.key ++ [v.key] := by
  induction ds with
  | nil => simp [insertViolation, mkDeduped_key]
  | cons d rest ih =>
    by_cases h : d.key = v.key
    · simp [insertViolation, h, addPage_key]
    · by_cases hm : v.key ∈ rest.map DedupedViolation.key
      · simp [insertViolation, h, ih, hm, Ne.symm h]
      · simp [insertViolation, h, ih, hm, Ne.symm h]

/-- A key is in the folded map iff it is a key of the accumulator or of
one of the processed violations. -/
theorem dedup_keys_mem (vs : List Violation) :
    ∀ (acc : List DedupedViolation) (k : String),
      (k ∈ (vs.foldl insertViolation acc).map DedupedViolation.key ↔
        k ∈ acc.map DedupedViolation.key ∨ k ∈ vs.map Violation.key) := by
  induction vs with
  | nil => simp
  | cons v vs ih =>
    intro acc k
    simp only [List.foldl_cons, List.map_cons, List.mem_cons]
    rw [ih]
    rw [insertViolation_keys]
    by_cases h : v.key ∈ acc.map DedupedViolation.key
    · rw [if_pos h]
      constructor
      · tauto
      · rintro (hk | rfl | hk)
        · exact Or.inl hk
        · exact Or.inl h
        · exact Or.inr hk
    · rw [if_neg h]
      simp only [List.mem_append, List.mem_singleton]
      tauto

/-- The folded map's keys stay pairwise distinct. -/
theorem dedup_keys_nodup (vs : List Violation) :
    ∀ acc : List DedupedViolation, (acc.map DedupedViolation.key).Nodup →
      ((vs.foldl insertViolation acc).map DedupedViolation.key).Nodup := by
  induction vs with
  | nil => exact fun _ h => h
  | cons v vs ih =>
    intro acc hacc
    simp only [List.foldl_cons]
    apply ih
    rw [insertViolation_keys]
    split_ifs with h
    · exact hacc
    · simp only [List.nodup_append, List.nodup_cons, List.nodup_nil,
        List.disjoint_singleton]
      exact ⟨hacc, by simp, h⟩

/-- In a list whose `f`-image has no duplicates, exactly the elements
whose image occurs are hit once by the corresponding filter. -/
theorem filter_length_of_nodup_map {α β : Type} [DecidableEq β] (f : α → β) :
    ∀ l : List α, (l.map f).Nodup → ∀ k : β,
      (l.filter fun a => f a = k).length = if k ∈ l.map f then 1 else 0 := by
  intro l
  induction l with
  | nil => simp
  | cons a l ih =>
    intro hnd k
    rw [List.map_cons, List.nodup_cons] at hnd
    by_cases h : f a = k
    · subst h
      rw [List.filter_cons_of_pos (by simp), List.length_cons, ih hnd.2 (f a),
        if_neg hnd.1, if_pos (by simp)]
    · rw [List.filter_cons_of_neg (by simp [h]), ih hnd.2 k]
      refine if_congr ?_ rfl rfl
      rw [List.map_cons, List.mem_cons]
      exact ⟨Or.inr, fun hor => hor.resolve_left fun hk => h hk.symm⟩

/-- Inserting a violation with an unknown key appends a fresh entry. -/
theorem insertViolation_of_not_mem (ds : List DedupedViolation) (v : Violation)
    (h : v.key ∉ ds.map DedupedViolation.key) :
    insertViolation ds v = ds ++ [mkDeduped v] := by
  induction ds with
  | nil => rfl
  | cons d rest ih =>
    simp only [List.map_cons, List.mem_cons] at h
    push_neg at h
    rw [insertViolation, if_neg fun hk => h.1 hk.symm, ih h.2]
    rfl

/-- Inserting a violation whose key first occurs at entry `d` updates
exactly that entry via `addPage`. -/
theorem insertViolation_first_match (v : Violation) :
    ∀ (ds1 : List DedupedViolation) (d : DedupedViolation)
      (ds2 : List DedupedViolation),
      (∀ d' ∈ ds1, d'.key ≠ v.key) → d.key = v.key →
      insertViolation (ds1 ++ d :: ds2) v = ds1 ++ addPage d v.pageUrl :: ds2 := by
  intro ds1
  induction ds1 with
  | nil => intro d ds2 _ hd; simp [insertViolation, hd]
  | cons e ds1 ih =>
    intro d ds2 h1 hd
    have he : e.key ≠ v.key := h1 e (by simp)
    simp only [List.cons_append, insertViolation, if_neg he]
    congr 1
    exact ih d ds2 (fun d' hm => h1 d' (by simp [hm])) hd

/-- Splitting a list at the first entry carrying a given key. -/
theorem exists_first_key (k : String) :
    ∀ ds : List DedupedViolation, k ∈ ds.map DedupedViolation.key →
      ∃ (ds1 : List DedupedViolation) (d : DedupedViolation)
        (ds2 : List DedupedViolation),
        ds = ds1 ++ d :: ds2 ∧ d.key = k ∧ ∀ d' ∈ ds1, d'.key ≠ k := by
  intro ds
  induction ds with
  | nil => simp
  | cons d rest ih =>
    intro hk
    rw [List.map_cons, List.mem_cons] at hk
    by_cases hd : d.key = k
    · exact ⟨[], d, rest, rfl, hd, by simp⟩
    · have hrest : k ∈ rest.map DedupedViolation.key := by
        rcases hk with hk | hk
        · exact absurd hk.symm hd
        · exact hk
      obtain ⟨ds1, e, ds2, heq, he, hfirst⟩ := ih hrest
      refine ⟨d :: ds1, e, ds2, by rw [heq]; rfl, he, ?_⟩
      intro d' hm
      rcases List.mem_cons.mp hm with rfl | hm
      · exact hd
      · exact hfirst d' hm

/-- Appending one violation to the aggregate list performs exactly one
`insertViolation` on the deduplicated map. -/
theorem dedupViolations_snoc (vs : List Violation) (v : Violation) :
    dedupViolations (vs ++ [v]) = insertViolation (dedupViolations vs) v := by
  simp [dedupViolations, List.foldl_append]

/-- The deduplicated map's keys are exactly the keys occurring among the
aggregated violations. -/
theorem dedupViolations_keys_mem (vs : List Violation) (k : String) :
    k ∈ (dedupViolations vs).map DedupedViolation.key ↔
      k ∈ vs.map Violation.key := by
  unfold dedupViolations
  rw [dedup_keys_mem vs []]
  simp

/-- C2.  Violations sharing a dedup key collapse to exactly one
`DedupedViolation`: the first occurrence of a key creates the entry with
`affectedPages = [pageUrl]` and `occurrences = 1`; each subsequent
occurrence updates that entry, appending its page and incrementing
`occurrences` only when the page is not already listed; and three pages
producing a violation with identical `(id, description)` yield one entry
with three affected pages and three occurrences. -/
theorem claim2_dedup_key_collapse (vs : List Violation) (v : Violation)
    (k : String) :
    (((dedupViolations vs).filter fun d => d.key = k).length =
      if k ∈ vs.map Violation.key then 1 else 0) ∧
    (v.key ∉ vs.map Violation.key →
      dedupViolations (vs ++ [v]) = dedupViolations vs ++ [mkDeduped v] ∧
      (mkDeduped v).affectedPages = [v.pageUrl] ∧
      (mkDeduped v).occurrences = 1 ∧ (mkDeduped v).toViolation = v) ∧
    (v.key ∈ vs.map Violation.key →
      ∃ (ds1 : List DedupedViolation) (d : DedupedViolation)
        (ds2 : List DedupedViolation),
        dedupViolations vs = ds1 ++ d :: ds2 ∧ d.key = v.key ∧
        (∀ d' ∈ ds1, d'.key ≠ v.key) ∧
        dedupViolations (vs ++ [v]) =
          ds1 ++ (if v.pageUrl ∈ d.affectedPages then d
                  else { d with affectedPages := d.affectedPages ++ [v.pageUrl]
                                occurrences := d.occurrences + 1 }) :: ds2) ∧
    ((scanMultipleUrls exFetchOk [exRuleFail] ["u1", "u2", "u3"]).violations.map
      fun d => (d.affectedPages, d.occurrences)) = [(["u1", "u2", "u3"], 3)] := by
  refine ⟨?_, ?_, ?_, by decide⟩
  · rw [filter_length_of_nodup_map DedupedViolation.key (dedupViolations vs)
      (dedup_keys_nodup vs [] (by simp)) k]
    exact if_congr (dedupViolations_keys_mem vs k) rfl rfl
  · intro h
    have hk : v.key ∉ (dedupViolations vs).map DedupedViolation.key := by
      rw [dedupViolations_keys_mem]
      exact h
    exact ⟨by rw [dedupViolations_snoc, insertViolation_of_not_mem _ _ hk],
      rfl, rfl, rfl⟩
  · intro h
    have hk : v.key ∈ (dedupViolations vs).map DedupedViolation.key := by
      rw [dedupViolations_keys_mem]
      exact h
    obtain ⟨ds1, d, ds2, heq, hd, hfirst⟩ := exists_first_key v.key _ hk
    refine ⟨ds1, d, ds2, heq, hd, hfirst, ?_⟩
    rw [dedupViolations_snoc, heq, insertViolation_first_match v ds1 d ds2 hfirst hd]
    rfl

/-- Witness for C2: applying the theorem at a first occurrence. -/
theorem claim2_dedup_key_collapse_witness :
    dedupViolations [exViol] = dedupViolations [] ++ [mkDeduped exViol] :=
  ((claim2_dedup_key_collapse [] exViol exViol.key).2.1 (by simp)).1

/-!
Rule-evaluation lemmas: the report's lists are the per-rule outcomes in
catalogue order.
-/

/-- The violations of a report, rule by rule. -/
theorem scanDocument_violations_eq (rules : List Rule) (doc : JsDoc)
    (pu : Option String) :
    (scanDocument rules doc pu).violations =
      rules.filterMap fun r => (evalRule doc (pu.getD "") r).violationPart := rfl

/-- The passed checks of a report, rule by rule. -/
theorem scanDocument_passed_eq (rules : List Rule) (doc : JsDoc)
    (pu : Option String) :
    (scanDocument rules doc pu).passed =
      rules.filterMap fun r => (evalRule doc (pu.getD "") r).passedPart := rfl

/-- Removing a list element that `f` sends to `none` does not change the
`filterMap`. -/
theorem filterMap_eraseIdx_of_none {α β : Type} (f : α → Option β) :
    ∀ (l : List α) (i : Nat) (hi : i < l.length), f (l.get ⟨i, hi⟩) = none →
      (l.eraseIdx i).filterMap f = l.filterMap f := by
  intro l
  induction l with
  | nil => intro i hi; simp at hi
  | cons a l ih =>
    intro i hi h
    match i with
    | 0 => simp only [List.eraseIdx, List.filterMap_cons, List.get] at h ⊢; rw [h]
    | i + 1 =>
      simp only [List.eraseIdx, List.filterMap_cons]
      have := ih i (by simpa using hi) (by simpa using h)
      cases f a <;> simp [this]

/-- C4.  A selector-based automated rule whose selector matches zero
elements on the document vacuously passes: its passed record is in the
report's `passed`, its evaluation produces no violation, and erasing the
rule from the catalogue leaves the report's `violations` unchanged. -/
theorem claim4_vacuous_pass (rules : List Rule) (doc : JsDoc)
    (pu : Option String) (i : Nat) (hi : i < rules.length) (sel : String)
    (chk : JsElem → JsOutcome)
    (himpl : (rules.get ⟨i, hi⟩).impl = .selectorCheck sel chk)
    (hty : (rules.get ⟨i, hi⟩).ruleType ≠ "manual")
    (hempty : doc.querySelectorAll sel = []) :
    passedRecord (rules.get ⟨i, hi⟩) ∈ (scanDocument rules doc pu).passed ∧
    (evalRule doc (pu.getD "") (rules.get ⟨i, hi⟩)).violationPart = none ∧
    (scanDocument rules doc pu).violations =
      (scanDocument (rules.eraseIdx i) doc pu).violations := by
  have heval : evalRule doc (pu.getD "") (rules.get ⟨i, hi⟩) =
      .ok (passedRecord (rules.get ⟨i, hi⟩)) := by
    simp only [evalRule, if_neg hty, himpl, hempty]
    rfl
  refine ⟨?_, by rw [heval]; rfl, ?_⟩
  · rw [scanDocument_passed_eq]
    exact List.mem_filterMap.mpr
      ⟨rules.get ⟨i, hi⟩, List.get_mem rules i hi, by rw [heval]; rfl⟩
  · rw [scanDocument_violations_eq, scanDocument_violations_eq]
    exact (filterMap_eraseIdx_of_none _ rules i hi (by rw [heval]; rfl)).symm

/-- Witness for C4: a selector rule on a document without matches. -/
theorem claim4_vacuous_pass_witness :
    passedRecord exRuleSel ∈ (scanDocument [exRuleSel] exDoc (some "u")).passed ∧
    (evalRule exDoc ((some "u").getD "") exRuleSel).violationPart = none ∧
    (scanDocument [exRuleSel] exDoc (some "u")).violations =
      (scanDocument ([exRuleSel].eraseIdx 0) exDoc (some "u")).violations :=
  claim4_vacuous_pass [exRuleSel] exDoc (some "u") 0 (by decide) "input" _
    rfl (by decide) rfl

/-!
Error-containment lemmas for thrown predicates.
-/

/-- Once the element loop has recorded a failure, later elements cannot
clear it. -/
theorem elemStep_allPass_false (chk : JsElem → JsOutcome) (st : ElemScan)
    (e : JsElem) (h : st.allPass = false) :
    (elemStep chk st e).allPass = false := by
  cases hchk : chk e with
  | thrown m => simp [elemStep, hchk]
  | ret v =>
    by_cases hp : v.toPassed
    · simp [elemStep, hchk, hp, h]
    · cases v with
      | bool b => simp [elemStep, hchk, hp]
      | obj p r f => simp [elemStep, hchk, hp]

/-- Folding the element loop from a failed state stays failed. -/
theorem foldl_elemStep_allPass_false (chk : JsElem → JsOutcome) :
    ∀ (l : List JsElem) (st : ElemScan), st.allPass = false →
      (l.foldl (elemStep chk) st).allPass = false := by
  intro l
  induction l with
  | nil => exact fun st h => h
  | cons a l ih =>
    intro st h
    exact ih _ (elemStep_allPass_false chk st a h)

/-- A thrown per-element check anywhere in the matched elements makes the
element loop fail. -/
theorem foldl_elemStep_thrown (chk : JsElem → JsOutcome) (e : JsElem)
    (msg : String) (h : chk e = .thrown msg) :
    ∀ (l : List JsElem), e ∈ l → ∀ st : ElemScan,
      (l.foldl (elemStep chk) st).allPass = false := by
  intro l
  induction l with
  | nil => intro he; cases he
  | cons a l ih =>
    intro he st
    rcases List.mem_cons.mp he with rfl | hmem
    · rw [List.foldl_cons]
      apply foldl_elemStep_allPass_false
      simp [elemStep, h]
    · rw [List.foldl_cons]
      exact ih hmem _

/-- C6.  A rule whose predicate throws during evaluation is caught: a
throwing `globalCheck` produces a violation (capturing the error message),
a throwing per-element check makes its rule a violation, and in both
cases the violation is in the report returned by `scanDocument` — no
error escapes, as `scanDocument` is total. -/
theorem claim6_thrown_predicate (rules : List Rule) (doc : JsDoc)
    (pu : Option String) (rule : Rule) (hmem : rule ∈ rules)
    (hty : rule.ruleType ≠ "manual") :
    (∀ (f : JsDoc → JsOutcome) (msg : String), rule.impl = .globalCheck f →
      f doc = .thrown msg →
      ∃ v, evalRule doc (pu.getD "") rule = .violated v ∧
        v ∈ (scanDocument rules doc pu).violations ∧ v.id = rule.id ∧
        v.violationReason = "Check failed with error: " ++ msg) ∧
    (∀ (sel : String) (chk : JsElem → JsOutcome) (e : JsElem) (msg : String),
      rule.impl = .selectorCheck sel chk → e ∈ doc.querySelectorAll sel →
      chk e = .thrown msg →
      ∃ v, evalRule doc (pu.getD "") rule = .violated v ∧
        v ∈ (scanDocument rules doc pu).violations ∧ v.id = rule.id) := by
  constructor
  · intro f msg himpl hthrow
    have heval : evalRule doc (pu.getD "") rule = .violated
        { id := rule.id, description := rule.description
          severity := rule.severity, category := rule.category
          ruleType := rule.ruleType, requirements := rule.requirements
          pageUrl := pu.getD ""
          preview := some ("Error during check: " ++ msg)
          violationReason := "Check failed with error: " ++ msg
          howToFix := "Review rule implementation and ensure proper DOM structure" } := by
      simp only [evalRule, if_neg hty, himpl, hthrow]
    refine ⟨_, heval, ?_, rfl, rfl⟩
    rw [scanDocument_violations_eq]
    exact List.mem_filterMap.mpr ⟨rule, hmem, by rw [heval]; rfl⟩
  · intro sel chk e msg himpl he hthrow
    have hlen : (doc.querySelectorAll sel).length > 0 :=
      List.length_pos.mpr (List.ne_nil_of_mem he)
    have hfold :
        ((doc.querySelectorAll sel).foldl (elemStep chk)
          ⟨true, none, none, none⟩).allPass = false :=
      foldl_elemStep_thrown chk e msg hthrow _ he _
    have heval : ∃ v, evalRule doc (pu.getD "") rule = .violated v ∧
        v.id = rule.id := by
      simp only [evalRule, if_neg hty, himpl]
      rw [if_pos hlen, if_neg (by rw [hfold]; exact Bool.false_ne_true)]
      exact ⟨_, rfl, rfl⟩
    obtain ⟨v, heval, hid⟩ := heval
    refine ⟨v, heval, ?_, hid⟩
    rw [scanDocument_violations_eq]
    exact List.mem_filterMap.mpr ⟨rule, hmem, by rw [heval]; rfl⟩

/-- Witness for C6: a throwing global check and a throwing element check,
both surfacing as violations of the same report. -/
theorem claim6_thrown_predicate_witness :
    (∃ v, evalRule exDocElems ((some "u").getD "") exRuleThrowG = .violated v ∧
      v ∈ (scanDocument [exRuleThrowG, exRuleThrowE] exDocElems (some "u")).violations ∧
      v.id = exRuleThrowG.id ∧
      v.violationReason = "Check failed with error: " ++ "boom") ∧
    (∃ v, evalRule exDocElems ((some "u").getD "") exRuleThrowE = .violated v ∧
      v ∈ (scanDocument [exRuleThrowG, exRuleThrowE] exDocElems (some "u")).violations ∧
      v.id = exRuleThrowE.id) := by
  constructor
  · exact (claim6_thrown_predicate [exRuleThrowG, exRuleThrowE] exDocElems
      (some "u") exRuleThrowG (List.mem_cons_self _ _) (by decide)).1 _ "boom" rfl rfl
  · exact (claim6_thrown_predicate [exRuleThrowG, exRuleThrowE] exDocElems
      (some "u") exRuleThrowE (List.mem_cons_of_mem _ (List.mem_cons_self _ _))
      (by decide)).2 "input" _ exElem "bang" rfl (by decide) rfl

/-!
Multi-page aggregation lemmas.
-/

/-- The aggregate's page summaries come from the URL loop. -/
theorem scanMultipleUrls_pageResults_eq (fp : String → Except String JsDoc)
    (rules : List Rule) (urls : List String) :
    (scanMultipleUrls fp rules urls).pageResults =
      (urls.foldl (scanStep fp rules) ⟨[], [], []⟩).pageResults := rfl

/-- The aggregate's passed list comes from the URL loop. -/
theorem scanMultipleUrls_passed_eq (fp : String → Except String JsDoc)
    (rules : List Rule) (urls : List String) :
    (scanMultipleUrls fp rules urls).passed =
      (urls.foldl (scanStep fp rules) ⟨[], [], []⟩).allPassed := rfl

/-- The aggregate's violations are the deduplication of the URL loop's
running violation list. -/
theorem scanMultipleUrls_violations_eq (fp : String → Except String JsDoc)
    (rules : List Rule) (urls : List String) :
    (scanMultipleUrls fp rules urls).violations =
      dedupViolations (urls.foldl (scanStep fp rules) ⟨[], [], []⟩).allViolations := rfl

/-- The URL loop only appends page summaries. -/
theorem foldl_scanStep_pageResults_ext (fp : String → Except String JsDoc)
    (rules : List Rule) :
    ∀ (urls : List String) (acc : ScanAccum),
      ∃ t, (urls.foldl (scanStep fp rules) acc).pageResults =
        acc.pageResults ++ t := by
  intro urls
  induction urls with
  | nil => exact fun acc => ⟨[], by simp⟩
  | cons a urls ih =>
    intro acc
    obtain ⟨t, ht⟩ := ih (scanStep fp rules acc a)
    rw [List.foldl_cons, ht]
    rw [show (scanStep fp rules acc a).pageResults =
      acc.pageResults ++ [{ url := a, score := (scanUrl fp rules a).score
                            violationCount := (scanUrl fp rules a).violations.length
                            passedCount := (scanUrl fp rules a).passed.length }]
      from rfl]
    exact ⟨_, by rw [List.append_assoc]⟩

/-- Every URL contributes exactly one page summary. -/
theorem foldl_scanStep_pageResults_length (fp : String → Except String JsDoc)
    (rules : List Rule) :
    ∀ (urls : List String) (acc : ScanAccum),
      (urls.foldl (scanStep fp rules) acc).pageResults.length =
        acc.pageResults.length + urls.length := by
  intro urls
  induction urls with
  | nil => simp
  | cons a urls ih =>
    intro acc
    rw [List.foldl_cons, ih]
    simp [scanStep]
    omega

/-- A URL whose fetch fails contributes the zero-score summary with no
error property. -/
theorem foldl_scanStep_summary_mem (fp : String → Except String JsDoc)
    (rules : List Rule) (u msg : String) (hf : fp u = .error msg) :
    ∀ (urls : List String) (acc : ScanAccum), u ∈ urls →
      (⟨u, 0, 0, 0, none⟩ : PageSummary) ∈
        (urls.foldl (scanStep fp rules) acc).pageResults := by
  intro urls
  induction urls with
  | nil => intro acc h; cases h
  | cons a urls ih =>
    intro acc hmem
    rw [List.foldl_cons]
    rcases List.mem_cons.mp hmem with rfl | hmem
    · obtain ⟨t, ht⟩ :=
        foldl_scanStep_pageResults_ext fp rules urls (scanStep fp rules acc u)
      rw [ht]
      apply List.mem_append_left
      simp [scanStep, scanUrl, hf]
    · exact ih _ hmem

/-- Predicate preservation for the aggregated passed checks. -/
theorem foldl_scanStep_allPassed_pred (fp : String → Except String JsDoc)
    (rules : List Rule) (P : AggPassed → Prop) :
    ∀ (urls : List String) (acc : ScanAccum),
      (∀ p ∈ acc.allPassed, P p) →
      (∀ url ∈ urls, ∀ q ∈ (scanUrl fp rules url).passed,
        P { toPassedCheck := q, pageUrl := url }) →
      ∀ p ∈ (urls.foldl (scanStep fp rules) acc).allPassed, P p := by
  intro urls
  induction urls with
  | nil => exact fun acc hacc _ => hacc
  | cons a urls ih =>
    intro acc hacc hstep
    rw [List.foldl_cons]
    apply ih
    · intro p hp
      rcases List.mem_append.mp hp with hp | hp
      · exact hacc p hp
      · obtain ⟨q, hq, rfl⟩ := List.mem_map.mp hp
        exact hstep a (by simp) q hq
    · exact fun url hurl => hstep url (by simp [hurl])

/-- Predicate preservation for the aggregated violations. -/
theorem foldl_scanStep_allViolations_pred (fp : String → Except String JsDoc)
    (rules : List Rule) (P : Violation → Prop) :
    ∀ (urls : List String) (acc : ScanAccum),
      (∀ v ∈ acc.allViolations, P v) →
      (∀ url ∈ urls, ∀ w ∈ (scanUrl fp rules url).violations,
        P { w with pageUrl := url }) →
      ∀ v ∈ (urls.foldl (scanStep fp rules) acc).allViolations, P v := by
  intro urls
  induction urls with
  | nil => exact fun acc hacc _ => hacc
  | cons a urls ih =>
    intro acc hacc hstep
    rw [List.foldl_cons]
    apply ih
    · intro v hv
      rcases List.mem_append.mp hv with hv | hv
      · exact hacc v hv
      · obtain ⟨w, hw, rfl⟩ := List.mem_map.mp hv
        exact hstep a (by simp) w hw
    · exact fun url hurl => hstep url (by simp [hurl])

/-- Pages recorded by one insertion come from the map or from the
inserted violation. -/
theorem insertViolation_pages (v : Violation) :
    ∀ ds : List DedupedViolation, ∀ d ∈ insertViolation ds v,
      ∀ x ∈ d.affectedPages,
        (∃ d' ∈ ds, x ∈ d'.affectedPages) ∨ x = v.pageUrl := by
  intro ds
  induction ds with
  | nil =>
    intro d hd x hx
    simp only [insertViolation, List.mem_singleton] at hd
    subst hd
    simp only [mkDeduped, List.mem_singleton] at hx
    exact Or.inr hx
  | cons e rest ih =>
    intro d hd x hx
    rw [insertViolation] at hd
    split_ifs at hd with hkey
    · rcases List.mem_cons.mp hd with rfl | hd
      · unfold addPage at hx
        split_ifs at hx with hp
        · exact Or.inl ⟨e, by simp, hx⟩
        · rcases List.mem_append.mp hx with hx | hx
          · exact Or.inl ⟨e, by simp, hx⟩
          · exact Or.inr (by simpa using hx)
      · exact Or.inl ⟨d, by simp [hd], hx⟩
    · rcases List.mem_cons.mp hd with rfl | hd
      · exact Or.inl ⟨d, by simp, hx⟩
      · rcases ih d hd x hx with ⟨d', hd', hx'⟩ | hx'
        · exact Or.inl ⟨d', by simp [hd'], hx'⟩
        · exact Or.inr hx'

/-- Every affected page of a deduplicated violation is the page of some
aggregated violation. -/
theorem dedupViolations_pages (vs : List Violation) :
    ∀ acc : List DedupedViolation, ∀ d ∈ vs.foldl insertViolation acc,
      ∀ x ∈ d.affectedPages,
        (∃ d' ∈ acc, x ∈ d'.affectedPages) ∨ ∃ v ∈ vs, v.pageUrl = x := by
  induction vs with
  | nil => exact fun acc d hd x hx => Or.inl ⟨d, hd, hx⟩
  | cons v vs ih =>
    intro acc d hd x hx
    rw [List.foldl_cons] at hd
    rcases ih (insertViolation acc v) d hd x hx with ⟨d', hd', hx'⟩ | ⟨w, hw, hwx⟩
    · rcases insertViolation_pages v acc d' hd' x hx' with ⟨d'', hd'', hx''⟩ | hx''
      · exact Or.inl ⟨d'', hd'', hx''⟩
      · exact Or.inr ⟨v, by simp, hx''.symm⟩
    · exact Or.inr ⟨w, by simp [hw], hwx⟩

/-- C5 (amended).  A URL whose fetch or parse fails yields a
`PageSummary` with score 0 and zero counts — but with no error property
(the error message lives only in `scanUrl`'s own report) — contributes no
aggregated passed checks or violations, and never prevents the remaining
URLs from being scanned (every URL still gets its summary). -/
theorem claim5_fetch_failure (fp : String → Except String JsDoc)
    (rules : List Rule) (urls : List String) (u msg : String)
    (hu : u ∈ urls) (hf : fp u = .error msg) :
    ((⟨u, 0, 0, 0, none⟩ : PageSummary) ∈
      (scanMultipleUrls fp rules urls).pageResults) ∧
    (scanMultipleUrls fp rules urls).pageResults.length = urls.length ∧
    (∀ p ∈ (scanMultipleUrls fp rules urls).passed, p.pageUrl ≠ u) ∧
    (∀ d ∈ (scanMultipleUrls fp rules urls).violations, u ∉ d.affectedPages) ∧
    (scanUrl fp rules u).error = some msg := by
  refine ⟨?_, ?_, ?_, ?_, by simp [scanUrl, hf]⟩
  · rw [scanMultipleUrls_pageResults_eq]
    exact foldl_scanStep_summary_mem fp rules u msg hf urls _ hu
  · rw [scanMultipleUrls_pageResults_eq, foldl_scanStep_pageResults_length]
    simp
  · rw [scanMultipleUrls_passed_eq]
    apply foldl_scanStep_allPassed_pred fp rules (fun p => p.pageUrl ≠ u) urls _
      (by simp)
    intro url hurl q hq
    by_cases h : url = u
    · subst h
      simp [scanUrl, hf] at hq
    · exact h
  · rw [scanMultipleUrls_violations_eq]
    intro d hd hxu
    have hall : ∀ v ∈ (urls.foldl (scanStep fp rules)
        (⟨[], [], []⟩ : ScanAccum)).allViolations, v.pageUrl ≠ u := by
      apply foldl_scanStep_allViolations_pred fp rules (fun v => v.pageUrl ≠ u)
        urls _ (by simp)
      intro url hurl w hw
      by_cases h : url = u
      · subst h
        simp [scanUrl, hf] at hw
      · exact h
    rcases dedupViolations_pages _ [] d hd u hxu with ⟨d', hd', _⟩ | ⟨v, hv, hvu⟩
    · simp at hd'
    · exact hall v hv hvu

/-- Witness for C5 (amended), at a concrete failing fetch. -/
theorem claim5_fetch_failure_witness :
    ((⟨"u1", 0, 0, 0, none⟩ : PageSummary) ∈
      (scanMultipleUrls exFetchFail [exRuleFail] ["u1", "u2"]).pageResults) ∧
    (scanMultipleUrls exFetchFail [exRuleFail] ["u1", "u2"]).pageResults.length =
      (["u1", "u2"] : List String).length ∧
    (∀ p ∈ (scanMultipleUrls exFetchFail [exRuleFail] ["u1", "u2"]).passed,
      p.pageUrl ≠ "u1") ∧
    (∀ d ∈ (scanMultipleUrls exFetchFail [exRuleFail] ["u1", "u2"]).violations,
      "u1" ∉ d.affectedPages) ∧
    (scanUrl exFetchFail [exRuleFail] "u1").error =
      some "Failed to fetch the URL" :=
  claim5_fetch_failure exFetchFail [exRuleFail] ["u1", "u2"] "u1"
    "Failed to fetch the URL" (by simp) rfl

/-- Counterexample for C5 as stated: the recorded `PageSummary` of a
failed page carries no error field (`error = none`), even though
`scanUrl`'s own report does. -/
theorem claim5_fetch_failure_cex :
    (scanMultipleUrls exFetchFail [] ["u1"]).pageResults.map
      PageSummary.error = [none] ∧
    (scanMultipleUrls exFetchFail [] ["u1"]).pageResults.map
      PageSummary.score = [0] ∧
    (scanUrl exFetchFail [] "u1").error = some "Failed to fetch the URL" := by
  decide

/-!
Crawler lemmas: the enqueueing fold, the link filter, and the loop.
-/

/-- Unfolding one step of the enqueueing fold. -/
theorem addLinks_cons (maxP dep : Nat) (l : String) (links : List String)
    (s : CrawlState) :
    addLinks maxP dep (l :: links) s =
      addLinks maxP dep links
        (if l ∉ s.discovered ∧ s.discovered.length < maxP then
          { s with discovered := s.discovered ++ [l]
                   queue := s.queue ++ [(l, dep)] }
        else s) := rfl

/-- Enqueueing links never touches the visited set. -/
theorem addLinks_visited (maxP dep : Nat) :
    ∀ (links : List String) (s : CrawlState),
      (addLinks maxP dep links s).visited = s.visited := by
  intro links
  induction links with
  | nil => exact fun _ => rfl
  | cons l links ih =>
    intro s
    rw [addLinks_cons, ih]
    split_ifs <;> rfl

/-- Enqueueing links only appends to `discovered`, and only links. -/
theorem addLinks_discovered_ext (maxP dep : Nat) :
    ∀ (links : List String) (s : CrawlState),
      ∃ t, (addLinks maxP dep links s).discovered = s.discovered ++ t ∧
        ∀ x ∈ t, x ∈ links := by
  intro links
  induction links with
  | nil => exact fun _ => ⟨[], by simp [addLinks], by simp⟩
  | cons l links ih =>
    intro s
    rw [addLinks_cons]
    split_ifs with h
    · obtain ⟨t, ht, hsub⟩ := ih
        { s with discovered := s.discovered ++ [l]
                 queue := s.queue ++ [(l, dep)] }
      refine ⟨[l] ++ t, ?_, ?_⟩
      · rw [ht]
        simp
      · intro x hx
        rcases List.mem_append.mp hx with hx | hx
        · rw [List.mem_singleton] at hx
          simp [hx]
        · simp [hsub x hx]
    · obtain ⟨t, ht, hsub⟩ := ih s
      exact ⟨t, ht, fun x hx => by simp [hsub x hx]⟩

/-- Enqueueing preserves membership in `discovered`. -/
theorem addLinks_mem_discovered (maxP dep : Nat) (links : List String)
    (s : CrawlState) (x : String) (hx : x ∈ s.discovered) :
    x ∈ (addLinks maxP dep links s).discovered := by
  obtain ⟨t, ht, _⟩ := addLinks_discovered_ext maxP dep links s
  rw [ht]
  exact List.mem_append_left t hx

/-- Enqueueing respects the page budget. -/
theorem addLinks_discovered_le (maxP dep : Nat) :
    ∀ (links : List String) (s : CrawlState), s.discovered.length ≤ maxP →
      (addLinks maxP dep links s).discovered.length ≤ maxP := by
  intro links
  induction links with
  | nil => exact fun _ h => h
  | cons l links ih =>
    intro s h
    rw [addLinks_cons]
    split_ifs with hc
    · exact ih _ (by simp only [List.length_append, List.length_singleton]; omega)
    · exact ih _ h

/-- Enqueueing never increases the loop variant. -/
theorem addLinks_measure_le (maxP dep : Nat) :
    ∀ (links : List String) (s : CrawlState),
      crawlMeasure maxP (addLinks maxP dep links s) ≤ crawlMeasure maxP s := by
  intro links
  induction links with
  | nil => exact fun _ => le_rfl
  | cons l links ih =>
    intro s
    rw [addLinks_cons]
    split_ifs with hc
    · refine (ih _).trans ?_
      simp only [crawlMeasure, List.length_append, List.length_singleton]
      omega
    · exact ih s

/-- Enqueueing grows `discovered` and the frontier in lockstep. -/
theorem addLinks_delta (maxP dep : Nat) :
    ∀ (links : List String) (s : CrawlState),
      (addLinks maxP dep links s).discovered.length + s.queue.length =
        (addLinks maxP dep links s).queue.length + s.discovered.length := by
  intro links
  induction links with
  | nil => exact fun _ => Nat.add_comm _ _
  | cons l links ih =>
    intro s
    rw [addLinks_cons]
    split_ifs with hc
    · have := ih { s with discovered := s.discovered ++ [l]
                          queue := s.queue ++ [(l, dep)] }
      simp only [List.length_append, List.length_singleton] at this ⊢
      omega
    · exact ih s

/-- `discovered` never shrinks under enqueueing. -/
theorem addLinks_discovered_ge (maxP dep : Nat) (links : List String)
    (s : CrawlState) :
    s.discovered.length ≤ (addLinks maxP dep links s).discovered.length := by
  obtain ⟨t, ht, _⟩ := addLinks_discovered_ext maxP dep links s
  rw [ht]
  simp

/-- Frontier entries after enqueueing: either an old entry, or a link
that was undiscovered at its insertion, enqueued at the given depth. -/
theorem addLinks_queue_mem (maxP dep : Nat) :
    ∀ (links : List String) (s : CrawlState) (u : String) (d : Nat),
      (u, d) ∈ (addLinks maxP dep links s).queue →
      (u, d) ∈ s.queue ∨ (u ∉ s.discovered ∧ d = dep) := by
  intro links
  induction links with
  | nil => exact fun _ _ _ h => Or.inl h
  | cons l links ih =>
    intro s u d hm
    rw [addLinks_cons] at hm
    split_ifs at hm with hc
    · rcases ih _ u d hm with hq | ⟨hnd, hd⟩
      · rcases List.mem_append.mp hq with hq | hq
        · exact Or.inl hq
        · rw [List.mem_singleton, Prod.mk.injEq] at hq
          exact Or.inr ⟨hq.1 ▸ hc.1, hq.2⟩
      · simp only [List.mem_append, List.mem_singleton] at hnd
        push_neg at hnd
        exact Or.inr ⟨hnd.1, hd⟩
    · exact ih s u d hm

/-- One step of the anchor loop only adds links that survived the
non-page-resource filter. -/
theorem linkStep_mem (env : CrawlEnv) (cur bo : String) (links : List String)
    (anchor : String) :
    ∀ x ∈ linkStep env cur bo links anchor,
      x ∈ links ∨ isNonPageResource x = false := by
  intro x hx
  simp only [linkStep] at hx
  by_cases h1 : anchor = ""
  · rw [if_pos h1] at hx
    exact Or.inl hx
  · rw [if_neg h1] at hx
    by_cases h2 : skipHref (cleanHref anchor) = true
    · rw [if_pos h2] at hx
      exact Or.inl hx
    · rw [if_neg h2] at hx
      split at hx
      · exact Or.inl hx
      · rename_i u hres
        by_cases h3 : u.origin ≠ bo
        · rw [if_pos h3] at hx
          exact Or.inl hx
        · rw [if_neg h3] at hx
          by_cases h4 :
              isNonPageResource (JsUrl.toString { u with hash := "" }) = true
          · rw [if_pos h4] at hx
            exact Or.inl hx
          · rw [if_neg h4] at hx
            unfold addUnique at hx
            split at hx
            · exact Or.inl hx
            · rcases List.mem_append.mp hx with h | h
              · exact Or.inl h
              · rw [List.mem_singleton] at h
                subst h
                cases hbool :
                    isNonPageResource (JsUrl.toString { u with hash := "" }) with
                | false => exact Or.inr rfl
                | true => exact absurd hbool h4

/-- Every extracted link survived the non-page-resource filter. -/
theorem extractLinks_no_resource (env : CrawlEnv) (html cur bo : String) :
    ∀ x ∈ extractLinks env html cur bo, isNonPageResource x = false := by
  suffices h : ∀ (anchors : List String) (acc : List String),
      (∀ x ∈ acc, isNonPageResource x = false) →
      ∀ x ∈ anchors.foldl (linkStep env cur bo) acc,
        isNonPageResource x = false by
    exact fun x hx => h (env.docAnchors html) [] (by simp) x hx
  intro anchors
  induction anchors with
  | nil => exact fun acc hacc => hacc
  | cons a anchors ih =>
    intro acc hacc
    rw [List.foldl_cons]
    apply ih
    intro x hx
    rcases linkStep_mem env cur bo acc a x hx with h | h
    · exact hacc x h
    · exact h

/-- A terminal state (empty frontier or exhausted budget) is a fixed
point of the loop, whatever the fuel. -/
theorem crawlIters_terminal (env : CrawlEnv) (bo : String) (maxP maxD : Nat)
    (fuel : Nat) (s : CrawlState)
    (h : s.queue = [] ∨ ¬ s.discovered.length < maxP) :
    crawlIters env bo maxP maxD fuel s = s := by
  cases fuel with
  | zero => rfl
  | succ f =>
    rcases h with hq | hg
    · simp [crawlIters, hq]
    · cases hq : s.queue with
      | nil => simp [crawlIters, hq]
      | cons p rest =>
        obtain ⟨url, depth⟩ := p
        simp [crawlIters, hq, hg]

/-- One iteration of the loop, in closed form. -/
theorem crawlIters_one (env : CrawlEnv) (bo : String) (maxP maxD : Nat)
    (s : CrawlState) (url : String) (depth : Nat)
    (rest : List (String × Nat)) (hq : s.queue = (url, depth) :: rest)
    (hg : s.discovered.length < maxP) :
    crawlIters env bo maxP maxD 1 s =
      if url ∈ s.visited ∨ maxD < depth then { s with queue := rest }
      else
        match env.fetchPage url with
        | none => { s with queue := rest, visited := s.visited ++ [url] }
        | some html =>
            addLinks maxP (depth + 1) (extractLinks env html url bo)
              { s with queue := rest, visited := s.visited ++ [url] } := by
  have h1 : (1 : Nat) = 0 + 1 := rfl
  rw [h1]
  simp only [crawlIters, hq]
  rw [if_pos hg]

/-- One iteration on an unvisited, in-depth URL whose fetch fails. -/
theorem crawlIters_one_fail (env : CrawlEnv) (bo : String) (maxP maxD : Nat)
    (s : CrawlState) (url : String) (depth : Nat)
    (rest : List (String × Nat)) (hq : s.queue = (url, depth) :: rest)
    (hg : s.discovered.length < maxP)
    (hskip : ¬(url ∈ s.visited ∨ maxD < depth))
    (hf : env.fetchPage url = none) :
    crawlIters env bo maxP maxD 1 s =
      { s with queue := rest, visited := s.visited ++ [url] } := by
  rw [crawlIters_one env bo maxP maxD s url depth rest hq hg, if_neg hskip, hf]

/-- One iteration on an unvisited, in-depth URL whose fetch succeeds. -/
theorem crawlIters_one_fetch (env : CrawlEnv) (bo : String) (maxP maxD : Nat)
    (s : CrawlState) (url : String) (depth : Nat)
    (rest : List (String × Nat)) (html : String)
    (hq : s.queue = (url, depth) :: rest)
    (hg : s.discovered.length < maxP)
    (hskip : ¬(url ∈ s.visited ∨ maxD < depth))
    (hf : env.fetchPage url = some html) :
    crawlIters env bo maxP maxD 1 s =
      addLinks maxP (depth + 1) (extractLinks env html url bo)
        { s with queue := rest, visited := s.visited ++ [url] } := by
  rw [crawlIters_one env bo maxP maxD s url depth rest hq hg, if_neg hskip, hf]

/-- Peeling one unit of fuel off a non-terminal iteration. -/
theorem crawlIters_succ_eq (env : CrawlEnv) (bo : String) (maxP maxD g : Nat)
    (s : CrawlState) (url : String) (depth : Nat)
    (rest : List (String × Nat)) (hq : s.queue = (url, depth) :: rest)
    (hg : s.discovered.length < maxP) :
    crawlIters env bo maxP maxD (g + 1) s =
      crawlIters env bo maxP maxD g (crawlIters env bo maxP maxD 1 s) := by
  rw [crawlIters_one env bo maxP maxD s url depth rest hq hg]
  simp only [crawlIters, hq]
  rw [if_pos hg]
  split_ifs with h
  · rfl
  · cases env.fetchPage url <;> rfl

/-- The loop variant strictly decreases across one non-terminal
iteration. -/
theorem crawlIters_one_measure (env : CrawlEnv) (bo : String)
    (maxP maxD : Nat) (s : CrawlState) (url : String) (depth : Nat)
    (rest : List (String × Nat)) (hq : s.queue = (url, depth) :: rest)
    (hg : s.discovered.length < maxP) :
    crawlMeasure maxP (crawlIters env bo maxP maxD 1 s) <
      crawlMeasure maxP s := by
  rw [crawlIters_one env bo maxP maxD s url depth rest hq hg]
  split_ifs with h
  · simp only [crawlMeasure, hq, List.length_cons]
    omega
  · cases hf : env.fetchPage url with
    | none =>
      simp only [crawlMeasure, hq, List.length_cons]
      omega
    | some html =>
      refine lt_of_le_of_lt (addLinks_measure_le maxP (depth + 1) _ _) ?_
      simp only [crawlMeasure, hq, List.length_cons]
      omega

/-- Any two sufficient fuels compute the same final state: the loop
reaches its exit condition within `crawlMeasure` iterations. -/
theorem crawlIters_fuel_sufficient (env : CrawlEnv) (bo : String)
    (maxP maxD : Nat) :
    ∀ (f₁ f₂ : Nat) (s : CrawlState), crawlMeasure maxP s < f₁ →
      crawlMeasure maxP s < f₂ →
      crawlIters env bo maxP maxD f₁ s = crawlIters env bo maxP maxD f₂ s := by
  intro f₁
  induction f₁ using Nat.strong_induction_on with
  | _ f₁ ih =>
    intro f₂ s h1 h2
    by_cases hterm : s.queue = [] ∨ ¬ s.discovered.length < maxP
    · rw [crawlIters_terminal env bo maxP maxD f₁ s hterm,
        crawlIters_terminal env bo maxP maxD f₂ s hterm]
    · push_neg at hterm
      obtain ⟨hqne, hg⟩ := hterm
      obtain ⟨url, depth, rest, hq⟩ :
          ∃ url depth rest, s.queue = (url, depth) :: rest := by
        cases hq' : s.queue with
        | nil => exact absurd hq' hqne
        | cons p rest =>
          obtain ⟨u, d⟩ := p
          exact ⟨u, d, rest, rfl⟩
      have hm1 : 1 ≤ crawlMeasure maxP s := by
        simp only [crawlMeasure, hq, List.length_cons]
        omega
      obtain ⟨g₁, rfl⟩ : ∃ g, f₁ = g + 1 := ⟨f₁ - 1, by omega⟩
      obtain ⟨g₂, rfl⟩ : ∃ g, f₂ = g + 1 := ⟨f₂ - 1, by omega⟩
      rw [crawlIters_succ_eq env bo maxP maxD g₁ s url depth rest hq hg,
        crawlIters_succ_eq env bo maxP maxD g₂ s url depth rest hq hg]
      have hlt := crawlIters_one_measure env bo maxP maxD s url depth rest hq hg
      exact ih g₁ (by omega) g₂ _ (by omega) (by omega)

/-- The loop respects the page budget. -/
theorem crawlIters_discovered_le (env : CrawlEnv) (bo : String)
    (maxP maxD : Nat) :
    ∀ (fuel : Nat) (s : CrawlState), s.discovered.length ≤ maxP →
      (crawlIters env bo maxP maxD fuel s).discovered.length ≤ maxP := by
  intro fuel
  induction fuel with
  | zero => exact fun _ h => h
  | succ f ih =>
    intro s h
    cases hq : s.queue with
    | nil =>
      rw [crawlIters_terminal env bo maxP maxD _ s (Or.inl hq)]
      exact h
    | cons p rest =>
      obtain ⟨url, depth⟩ := p
      by_cases hg : s.discovered.length < maxP
      · simp only [crawlIters, hq]
        rw [if_pos hg]
        split_ifs with hskip
        · exact ih _ h
        · cases hfp : env.fetchPage url with
          | none => exact ih _ h
          | some html => exact ih _ (addLinks_discovered_le _ _ _ _ h)
      · rw [crawlIters_terminal env bo maxP maxD _ s (Or.inr hg)]
        exact h

/-- The loop only ever appends to `discovered`. -/
theorem crawlIters_discovered_ext (env : CrawlEnv) (bo : String)
    (maxP maxD : Nat) :
    ∀ (fuel : Nat) (s : CrawlState),
      ∃ t, (crawlIters env bo maxP maxD fuel s).discovered =
        s.discovered ++ t := by
  intro fuel
  induction fuel with
  | zero => exact fun s => ⟨[], (List.append_nil _).symm⟩
  | succ f ih =>
    intro s
    cases hq : s.queue with
    | nil =>
      rw [crawlIters_terminal env bo maxP maxD _ s (Or.inl hq)]
      exact ⟨[], (List.append_nil _).symm⟩
    | cons p rest =>
      obtain ⟨url, depth⟩ := p
      by_cases hg : s.discovered.length < maxP
      · simp only [crawlIters, hq]
        rw [if_pos hg]
        split_ifs with hskip
        · exact ih _
        · cases hfp : env.fetchPage url with
          | none => exact ih _
          | some html =>
            obtain ⟨t1, ht1, _⟩ := addLinks_discovered_ext maxP (depth + 1)
              (extractLinks env html url bo)
              { s with queue := rest, visited := s.visited ++ [url] }
            obtain ⟨t2, ht2⟩ := ih (addLinks maxP (depth + 1)
              (extractLinks env html url bo)
              { s with queue := rest, visited := s.visited ++ [url] })
            exact ⟨t1 ++ t2, by rw [ht2, ht1]; simp⟩
      · rw [crawlIters_terminal env bo maxP maxD _ s (Or.inr hg)]
        exact ⟨[], by simp⟩

/-- A property of URLs that holds of every extracted link propagates from
the initial `discovered` set to the final one. -/
theorem crawlIters_discovered_pred (env : CrawlEnv) (bo : String)
    (maxP maxD : Nat) (P : String → Prop)
    (hlinks : ∀ html cur : String, ∀ x ∈ extractLinks env html cur bo, P x) :
    ∀ (fuel : Nat) (s : CrawlState), (∀ x ∈ s.discovered, P x) →
      ∀ x ∈ (crawlIters env bo maxP maxD fuel s).discovered, P x := by
  intro fuel
  induction fuel with
  | zero => exact fun _ h => h
  | succ f ih =>
    intro s h
    cases hq : s.queue with
    | nil =>
      rw [crawlIters_terminal env bo maxP maxD _ s (Or.inl hq)]
      exact h
    | cons p rest =>
      obtain ⟨url, depth⟩ := p
      by_cases hg : s.discovered.length < maxP
      · simp only [crawlIters, hq]
        rw [if_pos hg]
        split_ifs with hskip
        · exact ih _ h
        · cases hfp : env.fetchPage url with
          | none => exact ih _ h
          | some html =>
            apply ih
            obtain ⟨t, ht, hsub⟩ := addLinks_discovered_ext maxP (depth + 1)
              (extractLinks env html url bo)
              { s with queue := rest, visited := s.visited ++ [url] }
            rw [ht]
            intro x hx
            rcases List.mem_append.mp hx with hx | hx
            · exact h x hx
            · exact hlinks html url x (hsub x hx)
      · rw [crawlIters_terminal env bo maxP maxD _ s (Or.inr hg)]
        exact h

/-- A discovered URL whose only frontier entries lie beyond `maxDepth`
and which has not been visited is never visited by the loop. -/
theorem crawlIters_deep_never_visited (env : CrawlEnv) (bo : String)
    (maxP maxD : Nat) (u : String) :
    ∀ (fuel : Nat) (s : CrawlState), u ∈ s.discovered → u ∉ s.visited →
      (∀ d : Nat, (u, d) ∈ s.queue → maxD < d) →
      u ∉ (crawlIters env bo maxP maxD fuel s).visited := by
  intro fuel
  induction fuel with
  | zero => exact fun _ _ hv _ => hv
  | succ f ih =>
    intro s hdisc hvis hqdeep
    cases hq : s.queue with
    | nil =>
      rw [crawlIters_terminal env bo maxP maxD _ s (Or.inl hq)]
      exact hvis
    | cons p rest =>
      obtain ⟨url, depth⟩ := p
      by_cases hg : s.discovered.length < maxP
      · simp only [crawlIters, hq]
        rw [if_pos hg]
        by_cases hu : url = u
        · subst hu
          rw [if_pos (Or.inr (hqdeep depth (by rw [hq]; simp)))]
          exact ih _ hdisc hvis fun d hd => hqdeep d (by rw [hq]; simp [hd])
        · split_ifs with hskip
          · exact ih _ hdisc hvis fun d hd => hqdeep d (by rw [hq]; simp [hd])
          · have hvis1 : u ∉ s.visited ++ [url] := by
              simp only [List.mem_append, List.mem_singleton]
              push_neg
              exact ⟨hvis, fun h => hu h.symm⟩
            cases hfp : env.fetchPage url with
            | none =>
              exact ih _ hdisc hvis1 fun d hd => hqdeep d (by rw [hq]; simp [hd])
            | some html =>
              apply ih
              · exact addLinks_mem_discovered _ _ _ _ u hdisc
              · rw [addLinks_visited]
                exact hvis1
              · intro d hd
                rcases addLinks_queue_mem maxP (depth + 1) _ _ u d hd with
                  hd | ⟨hnd, _⟩
                · exact hqdeep d (by rw [hq]; simp [hd])
                · exact absurd hdisc hnd
      · rw [crawlIters_terminal env bo maxP maxD _ s (Or.inr hg)]
        exact hvis

/-- C7 (amended).  With `maxPages ≥ 1` the crawler returns at most
`maxPages` URLs (for `maxPages = 0` the pre-seeded start URL already
exceeds the budget — see the counterexample), and a discovered URL whose
frontier entries all lie beyond `maxDepth` — as holds of every URL
enqueued at depth `maxDepth + 1` — is never visited. -/
theorem claim7_crawl_bounds (env : CrawlEnv) (baseUrl : String)
    (maxP maxD : Nat) :
    (1 ≤ maxP → ∀ urls : List String,
      crawlWebsite env baseUrl maxP maxD = some urls → urls.length ≤ maxP) ∧
    (∀ (bo : String) (fuel : Nat) (s : CrawlState) (u : String),
      u ∈ s.discovered → u ∉ s.visited →
      (∀ d : Nat, (u, d) ∈ s.queue → maxD < d) →
      u ∉ (crawlIters env bo maxP maxD fuel s).visited) := by
  constructor
  · intro hP urls hurls
    unfold crawlWebsite at hurls
    cases hparse : env.parseUrl baseUrl with
    | none => rw [hparse] at hurls; cases hurls
    | some b =>
      rw [hparse] at hurls
      simp only [Option.some.injEq] at hurls
      subst hurls
      exact crawlIters_discovered_le env b.origin maxP maxD _ _ (by simpa using hP)
  · intro bo fuel s u hdisc hvis hdeep
    exact crawlIters_deep_never_visited env bo maxP maxD u fuel s hdisc hvis hdeep

/-- Witness for C7 (amended): a two-page crawl stays within a budget of
50, and a URL enqueued at depth 4 with `maxDepth = 3` is never visited. -/
theorem claim7_crawl_bounds_witness :
    (["http://a.example/", "http://a.example/doc.pdf?x=1"] : List String).length ≤ 50 ∧
    "p" ∉ (crawlIters exEnvPdf "http://a.example" 50 3 5
      ⟨["p"], [], [("p", 4)]⟩).visited := by
  constructor
  · exact (claim7_crawl_bounds exEnvPdf "http://a.example/" 50 3).1 (by omega)
      ["http://a.example/", "http://a.example/doc.pdf?x=1"] (by decide)
  · exact (claim7_crawl_bounds exEnvPdf "http://a.example/" 50 3).2
      "http://a.example" 5 ⟨["p"], [], [("p", 4)]⟩ "p" (by decide) (by decide)
      (fun d hd => by
        rw [List.mem_singleton, Prod.mk.injEq] at hd
        omega)

/-- Counterexample for C7 as stated: with `maxPages = 0` the returned
list still contains the seed, so its length exceeds `maxPages`. -/
theorem claim7_crawl_bounds_cex :
    crawlWebsite exEnvPdf "http://a.example/" 0 3 = some ["http://a.example/"] ∧
    ¬ ((["http://a.example/"] : List String).length ≤ 0) := by
  decide

/-- C8 (amended).  Link extraction discards exactly the links whose
serialized resolved URL — fragment stripped, query string retained,
lowercased — ends in one of the fixed non-page extensions; hence every
crawled URL other than the seed passes that filter.  (The filter tests
the whole URL string, not the path's extension — see the
counterexample.) -/
theorem claim8_extension_filter (env : CrawlEnv) :
    (∀ html cur bo : String, ∀ link ∈ extractLinks env html cur bo,
      isNonPageResource link = false) ∧
    (∀ (baseUrl : String) (maxP maxD : Nat) (urls : List String),
      crawlWebsite env baseUrl maxP maxD = some urls →
      ∀ x ∈ urls, x = baseUrl ∨ isNonPageResource x = false) := by
  constructor
  · exact fun html cur bo => extractLinks_no_resource env html cur bo
  · intro baseUrl maxP maxD urls hurls x hx
    unfold crawlWebsite at hurls
    cases hparse : env.parseUrl baseUrl with
    | none => rw [hparse] at hurls; cases hurls
    | some b =>
      rw [hparse] at hurls
      simp only [Option.some.injEq] at hurls
      subst hurls
      refine crawlIters_discovered_pred env b.origin maxP maxD
        (fun y => y = baseUrl ∨ isNonPageResource y = false)
        (fun html cur y hy => Or.inr (extractLinks_no_resource env html cur
          b.origin y hy)) _ _ ?_ x hx
      intro y hy
      rw [List.mem_singleton] at hy
      exact Or.inl hy

/-- Witness for C8 (amended), extracting the filter fact for the crawled
non-seed URL. -/
theorem claim8_extension_filter_witness :
    isNonPageResource "http://a.example/doc.pdf?x=1" = false :=
  (((claim8_extension_filter exEnvPdf).2 "http://a.example/" 50 3
      ["http://a.example/", "http://a.example/doc.pdf?x=1"] (by decide)
      "http://a.example/doc.pdf?x=1" (by decide)).resolve_left (by decide))

/-- Counterexample for C8 as stated: a link resolving to path `/doc.pdf`
(lowercased extension `.pdf`, in the fixed list) but carrying a query
string is not discarded — it is extracted and added to `discovered`. -/
theorem claim8_extension_filter_cex :
    (exEnvPdf.resolveUrl "doc.pdf?x=1" "http://a.example/").map JsUrl.pathname =
      some "/doc.pdf" ∧
    jsEndsWith (jsToLower "/doc.pdf") ".pdf" = true ∧
    ".pdf" ∈ nonPageExtensions ∧
    "http://a.example/doc.pdf?x=1" ∈
      extractLinks exEnvPdf "page" "http://a.example/" "http://a.example" ∧
    crawlWebsite exEnvPdf "http://a.example/" 50 3 =
      some ["http://a.example/", "http://a.example/doc.pdf?x=1"] := by
  decide

/-- C9.  The crawl loop terminates: each non-terminal iteration strictly
decreases `maxPages - |discovered|` or `|frontier|` (and always their
sum, the loop variant), and consequently the loop's result is already
reached within any fuel exceeding the variant — in particular the fuel
`crawlWebsite` allots — so `crawlWebsite` always returns. -/
theorem claim9_termination (env : CrawlEnv) (bo : String) (maxP maxD : Nat) :
    (∀ (s : CrawlState) (url : String) (depth : Nat)
      (rest : List (String × Nat)), s.queue = (url, depth) :: rest →
      s.discovered.length < maxP →
      crawlMeasure maxP (crawlIters env bo maxP maxD 1 s) <
        crawlMeasure maxP s ∧
      (maxP - (crawlIters env bo maxP maxD 1 s).discovered.length <
          maxP - s.discovered.length ∨
        (crawlIters env bo maxP maxD 1 s).queue.length < s.queue.length)) ∧
    (∀ (f₁ f₂ : Nat) (s : CrawlState), crawlMeasure maxP s < f₁ →
      crawlMeasure maxP s < f₂ →
      crawlIters env bo maxP maxD f₁ s = crawlIters env bo maxP maxD f₂ s) := by
  constructor
  · intro s url depth rest hq hg
    refine ⟨crawlIters_one_measure env bo maxP maxD s url depth rest hq hg, ?_⟩
    by_cases h : url ∈ s.visited ∨ maxD < depth
    · right
      rw [crawlIters_one env bo maxP maxD s url depth rest hq hg, if_pos h, hq]
      simp
    · cases hf : env.fetchPage url with
      | none =>
        right
        rw [crawlIters_one_fail env bo maxP maxD s url depth rest hq hg h hf, hq]
        simp
      | some html =>
        rw [crawlIters_one_fetch env bo maxP maxD s url depth rest html hq hg h hf]
        have hdelta := addLinks_delta maxP (depth + 1)
          (extractLinks env html url bo)
          { s with queue := rest, visited := s.visited ++ [url] }
        have hge := addLinks_discovered_ge maxP (depth + 1)
          (extractLinks env html url bo)
          { s with queue := rest, visited := s.visited ++ [url] }
        simp only [hq, List.length_cons]
        simp only at hdelta hge
        omega
  · exact crawlIters_fuel_sufficient env bo maxP maxD

/-- Witness for C9 at a concrete non-terminal state. -/
theorem claim9_termination_witness :
    (crawlMeasure 50 (crawlIters exEnvPdf "http://a.example" 50 3 1
        ⟨["http://a.example/"], [], [("http://a.example/", 0)]⟩) <
      crawlMeasure 50 ⟨["http://a.example/"], [], [("http://a.example/", 0)]⟩) ∧
    crawlIters exEnvPdf "http://a.example" 50 3 60
        ⟨["http://a.example/"], [], [("http://a.example/", 0)]⟩ =
      crawlIters exEnvPdf "http://a.example" 50 3 70
        ⟨["http://a.example/"], [], [("http://a.example/", 0)]⟩ := by
  constructor
  · exact ((claim9_termination exEnvPdf "http://a.example" 50 3).1
      ⟨["http://a.example/"], [], [("http://a.example/", 0)]⟩
      "http://a.example/" 0 [] rfl (by decide)).1
  · exact (claim9_termination exEnvPdf "http://a.example" 50 3).2 60 70
      ⟨["http://a.example/"], [], [("http://a.example/", 0)]⟩ (by decide)
      (by decide)

/-- C10.  The seed URL is added to `discovered` verbatim before the loop
and the loop only appends, so the returned list starts with the
unmodified seed URL — regardless of fetch outcomes, fragment content or
extension. -/
theorem claim10_seed_first (env : CrawlEnv) (baseUrl : String)
    (maxP maxD : Nat) (b : JsUrl) (hparse : env.parseUrl baseUrl = some b) :
    ∃ rest : List String,
      crawlWebsite env baseUrl maxP maxD = some (baseUrl :: rest) := by
  obtain ⟨t, ht⟩ := crawlIters_discovered_ext env b.origin maxP maxD
    (crawlMeasure maxP ⟨[baseUrl], [], [(baseUrl, 0)]⟩ + 1)
    ⟨[baseUrl], [], [(baseUrl, 0)]⟩
  refine ⟨t, ?_⟩
  have hw : crawlWebsite env baseUrl maxP maxD =
      some (crawlIters env b.origin maxP maxD
        (crawlMeasure maxP ⟨[baseUrl], [], [(baseUrl, 0)]⟩ + 1)
        ⟨[baseUrl], [], [(baseUrl, 0)]⟩).discovered := by
    unfold crawlWebsite
    rw [hparse]
  rw [hw, ht]
  rfl

/-- Witness for C10: a seed URL carrying a fragment and a `.pdf`
extension, whose fetch fails, still heads the returned list. -/
theorem claim10_seed_first_witness :
    ∃ rest : List String,
      crawlWebsite exEnvSeedFail "http://a.example/x.pdf#frag" 50 3 =
        some ("http://a.example/x.pdf#frag" :: rest) :=
  claim10_seed_first exEnvSeedFail "http://a.example/x.pdf#frag" 50 3
    ⟨"http://a.example", "/x.pdf", "", "#frag"⟩ rfl

end DGA
